import Mathlib

/-!
# Verification of the navidrome/insights telemetry aggregation pipeline

This file gives a shallow embedding, in Lean 4, of the core aggregation
pipeline of the navidrome/insights repository:

* the player-type classifier (`mapPlayerTypes` and its rule table
  `playersTypes`, from `summary/summary.go`),
* the version normalizer (`mapVersion`),
* the OS and filesystem normalizers (`mapOS`, `mapFS`),
* the bucket binning function (`mapToBins`),
* the statistics function (`calcStats`),
* the daily summarization loop (`SummarizeData`, modelled as `summarize`),
* the reporting shaper (`ExcludeIncompleteDays`, `buildTimeSeriesData`,
  `findGaps`, the rolling-window top-N selection of `buildVersionsChart`).

Go maps are modelled as association lists (`CMap`); Go `int64` values are
modelled as `Int` (the pipeline counts instances and library sizes, far from
the 64-bit overflow boundary), Go `uint64` counters as `Nat`, and Go
`float64` computations as exact rational arithmetic over `ℚ`.  Where a Go
`map` is iterated with first-match-wins semantics (the classifier rule
table), the iteration order is taken as an explicit parameter, because Go
randomizes map iteration order between runs.
-/

set_option maxRecDepth 10000

namespace Insights

/-- A Go `map[string]uint64` counter map, modelled as an association list.
Entries are kept in first-insertion order; Go serializes such maps with
sorted keys, so two maps are byte-identical after JSON serialization
exactly when they are equal as finite maps. -/
abbrev CMap := List (String × Nat)

/-- Lookup with default 0, the value a Go counter map read yields for an
absent key. -/
def lookup0 (m : CMap) (k : String) : Nat :=
  match m with
  | [] => 0
  | kv :: rest => if kv.1 = k then kv.2 else lookup0 rest k

/-- Optional lookup: distinguishes an absent key from a stored 0. -/
def lookupOpt (m : CMap) (k : String) : Option Nat :=
  match m with
  | [] => none
  | kv :: rest => if kv.1 = k then some kv.2 else lookupOpt rest k

/-- `m[k] += n` on a Go counter map: update the entry in place, or append a
fresh entry holding `n` (a read of an absent key yields 0). -/
def incrBy (m : CMap) (k : String) (n : Nat) : CMap :=
  match m with
  | [] => [(k, n)]
  | kv :: rest => if kv.1 = k then (k, kv.2 + n) :: rest else kv :: incrBy rest k n

/-- `m[k]++` on a Go counter map. -/
def incr (m : CMap) (k : String) : CMap := incrBy m k 1

/-- `m[k] = max(m[k], n)` on a Go counter map (used by `mapPlayerTypes` to
merge aliases of the same player). -/
def maxIns (m : CMap) (k : String) (n : Nat) : CMap :=
  match m with
  | [] => [(k, max 0 n)]
  | kv :: rest => if kv.1 = k then (k, max kv.2 n) :: rest else kv :: maxIns rest k n

/-! ## Regular-expression rules of the player-type classifier

Each rule of the Go table `playersTypes` is an RE2 pattern used only through
`MatchString` (unanchored search).  Every pattern in the table is a literal
string, possibly with `.` wildcards, a leading `^` anchor, an alternation,
a `(?i)` case-insensitivity flag, and an irrelevant trailing `.*`.  The
embedding represents a pattern by its list of alternatives, each a token
list (`some c` a literal character, `none` the `.` wildcard, which in RE2
matches any character except a newline), an anchor flag and a
case-insensitivity flag. -/

/-- Does the token list match a prefix of the character list?
`none` tokens are `.` wildcards: any character except a newline. -/
def matchWild : List (Option Char) → List Char → Bool
  | [], _ => true
  | _ :: _, [] => false
  | some p :: ps, c :: cs => c = p && matchWild ps cs
  | none :: ps, c :: cs => decide (c ≠ '\n') && matchWild ps cs

/-- Does the token list match anywhere in the character list (unanchored
search, as Go `MatchString`)? -/
def containsWild (ps : List (Option Char)) : List Char → Bool
  | [] => matchWild ps []
  | c :: cs => matchWild ps (c :: cs) || containsWild ps cs

/-- Turn a literal regex fragment into a token list: `.` becomes the
wildcard, every other character stands for itself. -/
def patToks (s : String) : List (Option Char) :=
  s.data.map (fun c => if c = '.' then none else some c)

/-- One classifier pattern: alternatives, anchor flag, case-insensitive
flag. -/
structure Pat where
  alts : List (List (Option Char))
  anchored : Bool
  ci : Bool
deriving DecidableEq, Repr

/-- Unanchored literal pattern (`lit` or `lit.*` in the Go table; the
trailing `.*` does not change `MatchString`). -/
def pContains (s : String) : Pat := ⟨[patToks s], false, false⟩

/-- Anchored pattern `^lit.*`. -/
def pStarts (s : String) : Pat := ⟨[patToks s], true, false⟩

/-- Two-alternative unanchored pattern (models `https?://...`). -/
def pOr (a b : String) : Pat := ⟨[patToks a, patToks b], false, false⟩

/-- Case-insensitive two-alternative pattern (models `(?i)(hiby|_hiby_)`). -/
def pCiOr (a b : String) : Pat := ⟨[patToks a, patToks b], false, true⟩

/-- ASCII lower-casing of a character list (models the case folding the Go
regexp engine applies for the `(?i)` patterns of the table, which are all
ASCII). -/
def lowerChars (cs : List Char) : List Char := cs.map Char.toLower

/-- Lower-case the literal characters of a token list. -/
def lowerToks (ps : List (Option Char)) : List (Option Char) :=
  ps.map (fun t => t.map Char.toLower)

/-- `MatchString` of a table pattern against an identifier. -/
def Pat.matches (p : Pat) (s : String) : Bool :=
  let hay := if p.ci then lowerChars s.data else s.data
  p.alts.any (fun toks =>
    let toks := if p.ci then lowerToks toks else toks
    if p.anchored then matchWild toks hay else containsWild toks hay)

/-- One rule of the classifier table: pattern and replacement label.  The
empty label is the discard sentinel. -/
abbrev Rule := Pat × String

/-- The `playersTypes` rule table of `summary/summary.go`, in source listing
order.  Go iterates this table as a `map`, in unspecified order; theorems
that depend on the order quantify over permutations of this list. -/
def playersTypes : List Rule :=
  [ (pContains "NavidromeUI", "NavidromeUI"),
    (pContains "supersonic", "Supersonic"),
    (pContains "feishin", ""),
    (pContains "audioling", "Audioling"),
    (pStarts "AginMusic", "AginMusic"),
    (pContains "playSub", "play:Sub"),
    (pContains "eu.callcc.audrey", "audrey"),
    (pContains "DSubCC", ""),
    (pContains "bonob+", ""),
    (pOr "http://airsonic" "https://airsonic", "Airsonic Refix"),
    (pContains "multi-scrobbler", "Multi-Scrobbler"),
    (pContains "SubMusic", "SubMusic"),
    (pCiOr "hiby" "_hiby_", "HiBy"),
    (pContains "microSub", "AVSub"),
    (pContains "Stream Music", "Musiver") ]

/-- The label an identifier is classified to, given the rule table in
iteration order `rules`: the first matching rule's label replaces the
identifier; an identifier matching no rule is kept unchanged. -/
def classify (rules : List Rule) (p : String) : String :=
  match rules.find? (fun r => r.1.matches p) with
  | some r => r.2
  | none => p

/-- An active-player map of one report: player identifier to concurrent
session count.  Counts are non-negative per the data model (Go stores
`int64` and converts with `uint64(count)`, the identity on this range). -/
abbrev PlayerMap := List (String × Nat)

/-- One step of the `seen` accumulation of `mapPlayerTypes`: classify the
identifier, then merge by maximum unless the label is the discard
sentinel. -/
def seenStep (rules : List Rule) (m : CMap) (pc : String × Nat) : CMap :=
  let lbl := classify rules pc.1
  if lbl ≠ "" then maxIns m lbl pc.2 else m

/-- The `seen` map of `mapPlayerTypes`: per-canonical-label maximum of the
collapsed raw counts, discarding empty labels. -/
def seenMap (rules : List Rule) (ap : PlayerMap) : CMap :=
  ap.foldl (seenStep rules) []

/-- `mapPlayerTypes` of `summary/summary.go`: classify each active player,
merge collapsed aliases by maximum, accumulate each label's maximum into
the running map `players`, and return the new running map together with the
report's total active-player count (the sum of the per-label maxima). -/
def mapPlayerTypes (rules : List Rule) (ap : PlayerMap) (players : CMap) :
    CMap × Nat :=
  let seen := seenMap rules ap
  (seen.foldl (fun pl kv => incrBy pl kv.1 kv.2) players,
   seen.foldl (fun t kv => t + kv.2) 0)

/-! ## Version normalizer

`mapVersion` applies the Go regexp `ReplaceAllString` with pattern
"open paren, a captured group of 8 hex digits, further hex digits, close
paren" and replacement "open paren, the captured group, close paren":
every parenthesized run of 8 or more hex digits is truncated to its first
8 digits.  Since a hex digit is never a closing parenthesis, the RE2
scan has a match at a position exactly when that position holds an opening
parenthesis followed by a maximal hex run of length at least 8 followed by
a closing parenthesis; `ReplaceAllString` replaces each leftmost match and
resumes after it.  The embedding is a direct scanner for this semantics;
the `fuel` argument is an upper bound on the scan length that makes the
recursion structural (it is always called with enough fuel). -/

/-- Hexadecimal digit, as the character class of `versionRegex`. -/
def isHexDigit (c : Char) : Bool :=
  ('0' ≤ c && c ≤ '9') || ('a' ≤ c && c ≤ 'f') || ('A' ≤ c && c ≤ 'F')

/-- Condition for a regex match starting at an opening parenthesis that is
followed by `rest`: a hex run of length at least 8, then a closing
parenthesis. -/
def shaMatch (rest : List Char) : Prop :=
  8 ≤ (rest.takeWhile isHexDigit).length ∧
    (rest.dropWhile isHexDigit).head? = some ')'

instance (rest : List Char) : Decidable (shaMatch rest) := by
  unfold shaMatch; infer_instance

/-- The scanner of `ReplaceAllString` for `versionRegex`.  At each position:
if a match starts here, emit the truncated form and resume after the match,
otherwise emit the character and move on. -/
def mapVersionGo : Nat → List Char → List Char
  | 0, l => l
  | _ + 1, [] => []
  | fuel + 1, c :: rest =>
    if c = '(' ∧ shaMatch rest then
      '(' :: ((rest.takeWhile isHexDigit).take 8 ++
        ')' :: mapVersionGo fuel (rest.dropWhile isHexDigit).tail)
    else
      c :: mapVersionGo fuel rest

/-- Canonical entry point on character lists, with adequate fuel. -/
def mvAux (l : List Char) : List Char := mapVersionGo l.length l

/-- `mapVersion` of `summary/summary.go`. -/
def mapVersion (s : String) : String := ⟨mvAux s.data⟩

/-! ## OS normalizer -/

/-- ASCII word-wise title casing, one step: upper-case a letter that starts
a word, lower-case a letter inside a word.  Models
`cases.Title(language.Und)` restricted to ASCII input (the OS type tags are
ASCII). -/
def asciiTitleGo (prevLetter : Bool) : List Char → List Char
  | [] => []
  | c :: rest =>
    (if c.isAlpha then (if prevLetter then c.toLower else c.toUpper) else c) ::
      asciiTitleGo c.isAlpha rest

/-- `caser.String` of `summary/summary.go` (title casing). -/
def asciiTitle (s : String) : String := ⟨asciiTitleGo false s.data⟩

/-- Scanner of Go `strings.Replace(s, pat, rep, -1)`: replace every
non-overlapping occurrence of `pat`, scanning left to right.  `fuel` is an
upper bound on the scan length making the recursion structural; the guard
`pat ≠ []` keeps the no-progress case of an empty pattern out (the one use
has pattern "bsd"). -/
def replaceAllGo (pat rep : List Char) : Nat → List Char → List Char
  | 0, l => l
  | _ + 1, [] => []
  | fuel + 1, c :: rest =>
    if pat.isPrefixOf (c :: rest) ∧ pat ≠ [] then
      rep ++ replaceAllGo pat rep fuel ((c :: rest).drop pat.length)
    else
      c :: replaceAllGo pat rep fuel rest

/-- Go `strings.Replace(s, pat, rep, -1)`. -/
def replaceAllStr (s pat rep : String) : String :=
  ⟨replaceAllGo pat.data rep.data s.data.length s.data⟩

/-- The OS descriptor fields of a report that the pipeline reads. -/
structure OSInfo where
  type : String
  distro : String
  arch : String
  containerized : Bool
deriving DecidableEq, Repr

/-- `mapOS` of `summary/summary.go`. -/
def mapOS (os : OSInfo) : String :=
  let osName :=
    if os.type = "darwin" then "macOS"
    else if os.type = "linux" then
      (if os.containerized then "Linux (containerized)" else "Linux")
    else replaceAllStr (asciiTitle os.type) "bsd" "BSD"
  osName ++ " - " ++ os.arch

/-! ## Filesystem normalizer -/

/-- A filesystem mount descriptor (the pipeline reads only its raw type
tag). -/
structure FSInfo where
  type : String
deriving DecidableEq, Repr

/-- The `fsMappings` alias table of `summary/summary.go`, verbatim. -/
def fsMappings : List (String × String) :=
  [ ("unknown(0x2011bab0)", "exfat"),
    ("unknown(0x7366746e)", "ntfs"),
    ("unknown(0xc36400)", "ceph"),
    ("unknown(0xf15f)", "ecryptfs"),
    ("unknown(0xff534d42)", "cifs"),
    ("unknown(0x786f4256)", "vboxsf"),
    ("unknown(0xf2f52010)", "f2fs"),
    ("unknown(0x5346544e)", "ntfs"),
    ("unknown(0x482b)", "hfs+"),
    ("unknown(0xca451a4e)", "virtiofs"),
    ("unknown(0x187)", "autofs"),
    ("unknown(0x-6edc97c2)", "btrfs"),
    ("unknown(0x-1acb2be)", "smb2"),
    ("unknown(0x-acb2be)", "cifs"),
    ("unknown(0x-d0adff0)", "f2fs") ]

/-- `mapFS` of `summary/summary.go`: a missing descriptor is "unknown", a
tag in the alias table maps to its friendly name, anything else is
lower-cased (`strings.ToLower`, modelled by ASCII lower-casing; the tags
are ASCII). -/
def mapFS : Option FSInfo → String
  | none => "unknown"
  | some fs =>
    match fsMappings.find? (fun kv => kv.1 = fs.type) with
    | some kv => kv.2
    | none => ⟨lowerChars fs.type.data⟩

/-! ## Binning -/

def TrackBins : List Int :=
  [0, 1, 100, 500, 1000, 5000, 10000, 20000, 50000, 100000, 500000, 1000000]

def AlbumBins : List Int :=
  [0, 1, 10, 50, 100, 500, 1000, 2000, 5000, 10000, 50000, 100000]

def ArtistBins : List Int :=
  [0, 1, 10, 50, 100, 500, 1000, 2000, 5000, 10000, 50000, 100000]

/-- `mapToBins` of `summary/summary.go`: scan the threshold list from the
top; the first threshold not exceeding the count has its counter (keyed by
the decimal form of the threshold) incremented; if every threshold exceeds
the count, nothing changes. -/
def mapToBins (count : Int) (bins : List Int) (counters : CMap) : CMap :=
  match bins.reverse.find? (fun b => decide (b ≤ count)) with
  | some b => incr counters (toString b)
  | none => counters

/-! ## Statistics -/

/-- The `Stats` record of `summary/summary.go`.  The Go struct stores
`stdDev = math.Sqrt(variance)` as a `float64`; the embedding keeps the
exact rational `variance` (the sum of squared deviations divided by N),
which determines the standard deviation: two `Stats` values agree exactly
when the corresponding Go structs agree in exact arithmetic. -/
structure Stats where
  min : Int
  max : Int
  mean : ℚ
  median : ℚ
  variance : ℚ
deriving DecidableEq, Repr

/-- `calcStats` of `summary/summary.go`: `none` for an empty sample;
otherwise minimum, maximum, arithmetic mean, median (lower-middle/average
of the two middles) and population variance of the sample.  `slices.Sort`
is modelled by insertion sort: both produce the unique ascending
rearrangement of an integer list. -/
def calcStats (values : List Int) : Option Stats :=
  if values.isEmpty then none
  else
    let sorted := List.insertionSort (· ≤ ·) values
    let n := sorted.length
    let sum : Int := sorted.foldl (· + ·) 0
    let mean : ℚ := (sum : ℚ) / (n : ℚ)
    let median : ℚ :=
      if n % 2 = 0 then
        ((sorted.getD (n / 2 - 1) 0 + sorted.getD (n / 2) 0 : Int) : ℚ) / 2
      else ((sorted.getD (n / 2) 0 : Int) : ℚ)
    let ssd : ℚ := sorted.foldl (fun (acc : ℚ) (v : Int) => acc + ((v : ℚ) - mean) ^ 2) 0
    some { min := sorted.headD 0, max := sorted.getLastD 0, mean := mean,
           median := median, variance := ssd / (n : ℚ) }

/-! ## Daily summarization -/

/-- The library counts of one report. -/
structure Library where
  tracks : Int
  albums : Int
  artists : Int
  playlists : Int
  shares : Int
  radios : Int
  libraries : Int
  activeUsers : Int
  activePlayers : PlayerMap
deriving DecidableEq, Repr

/-- One telemetry report, restricted to the fields the summarization loop
reads (`insights.Data`). -/
structure Report where
  version : String
  os : OSInfo
  fsMusic : Option FSInfo
  fsData : Option FSInfo
  library : Library
deriving DecidableEq, Repr

/-- The daily `Summary` of `summary/summary.go`.  Counter maps are `CMap`;
absent stats are `none` (the Go struct holds nil pointers, omitted from
the JSON). -/
structure Summary where
  numInstances : Int
  numActiveUsers : Int
  versions : CMap
  os : CMap
  distros : CMap
  playerTypes : CMap
  players : CMap
  users : CMap
  tracks : CMap
  albums : CMap
  artists : CMap
  musicFS : CMap
  dataFS : CMap
  trackStats : Option Stats
  albumStats : Option Stats
  artistStats : Option Stats
  playlistStats : Option Stats
  shareStats : Option Stats
  radioStats : Option Stats
  libraryStats : Option Stats
deriving DecidableEq, Repr

/-- The all-empty summary `SummarizeData` starts from. -/
def emptySummary : Summary :=
  { numInstances := 0, numActiveUsers := 0, versions := [], os := [],
    distros := [], playerTypes := [], players := [], users := [],
    tracks := [], albums := [], artists := [], musicFS := [], dataFS := [],
    trackStats := none, albumStats := none, artistStats := none,
    playlistStats := none, shareStats := none, radioStats := none,
    libraryStats := none }

/-- The loop state of `SummarizeData`: the summary under construction and
the seven per-metric sample lists. -/
structure AggState where
  s : Summary
  trackValues : List Int
  albumValues : List Int
  artistValues : List Int
  playlistValues : List Int
  shareValues : List Int
  radioValues : List Int
  libraryValues : List Int
deriving DecidableEq, Repr

/-- One iteration of the `for data := range rows` loop of `SummarizeData`.
`rules` is the iteration order of the classifier rule table for this
report. -/
def aggStep (rules : List Rule) (st : AggState) (data : Report) : AggState :=
  let s := st.s
  let mp := mapPlayerTypes rules data.library.activePlayers s.playerTypes
  let s :=
    { s with
      numInstances := s.numInstances + 1,
      numActiveUsers := s.numActiveUsers + data.library.activeUsers,
      versions := incr s.versions (mapVersion data.version),
      os := incr s.os (mapOS data.os),
      distros :=
        if data.os.type = "linux" ∧ ¬data.os.containerized then
          incr s.distros data.os.distro
        else s.distros,
      users := incr s.users (toString data.library.activeUsers),
      musicFS := incr s.musicFS (mapFS data.fsMusic),
      dataFS := incr s.dataFS (mapFS data.fsData),
      playerTypes := mp.1,
      players := incr s.players (toString mp.2),
      tracks := mapToBins data.library.tracks TrackBins s.tracks,
      albums := mapToBins data.library.albums AlbumBins s.albums,
      artists := mapToBins data.library.artists ArtistBins s.artists }
  { s := s,
    trackValues :=
      if 0 < data.library.tracks then st.trackValues ++ [data.library.tracks]
      else st.trackValues,
    albumValues :=
      if 0 < data.library.albums then st.albumValues ++ [data.library.albums]
      else st.albumValues,
    artistValues :=
      if 0 < data.library.artists then st.artistValues ++ [data.library.artists]
      else st.artistValues,
    playlistValues := st.playlistValues ++ [data.library.playlists],
    shareValues := st.shareValues ++ [data.library.shares],
    radioValues := st.radioValues ++ [data.library.radios],
    libraryValues := st.libraryValues ++ [data.library.libraries] }

/-- `SummarizeData` of `summary/summary.go`, as a function of the report
sequence for the day: `none` models "no data, nothing persisted", `some s`
models the persisted summary.  Go serializes a summary with sorted map
keys, so two persisted files are byte-identical exactly when the summaries
are equal.  `rules` is the iteration order of the classifier rule table
(randomized per run by the Go runtime, hence a parameter). -/
def summarize (rules : List Rule) (reports : List Report) : Option Summary :=
  let st := reports.foldl (aggStep rules)
    ⟨emptySummary, [], [], [], [], [], [], []⟩
  if st.s.numInstances = 0 then none
  else
    some
      { st.s with
        trackStats := calcStats st.trackValues,
        albumStats := calcStats st.albumValues,
        artistStats := calcStats st.artistValues,
        playlistStats := calcStats st.playlistValues,
        shareStats := calcStats st.shareValues,
        radioStats := calcStats st.radioValues,
        libraryStats := calcStats st.libraryValues }

/-! ## Reporting shaper (charts package) -/

/-- One persisted summary with its calendar day.  `time` is the day number
(consecutive integers are consecutive calendar days; the Go code steps
dates with `AddDate(0, 0, 1)` and stores one summary per day). -/
structure SummaryRecord where
  time : Int
  data : Summary
deriving DecidableEq, Repr

/-- The tail-trimming loop of `ExcludeIncompleteDays`, written on the
reversed list (the Go loop inspects the last two elements).  The drop test
`5 * last < 4 * prev` is the exact-arithmetic form of the source's
`float64(last) / float64(prev) < 0.8` (`consts.IncompleteThreshold`),
cross-multiplied; it is only reached under the source's guard
`prev > 0`. -/
def trimRev : List SummaryRecord → List SummaryRecord
  | [] => []
  | [x] => [x]
  | last :: prev :: rest =>
    if 0 < prev.data.numInstances ∧
        5 * last.data.numInstances < 4 * prev.data.numInstances then
      trimRev (prev :: rest)
    else last :: prev :: rest

/-- `ExcludeIncompleteDays` of `charts/charts.go`. -/
def ExcludeIncompleteDays (summaries : List SummaryRecord) :
    List SummaryRecord :=
  if summaries.isEmpty then [] else (trimRev summaries.reverse).reverse

/-- Go map insertion (`lookup[key] = value`): overwrite in place or
append. -/
def insertRec (m : List (Int × SummaryRecord)) (k : Int) (v : SummaryRecord) :
    List (Int × SummaryRecord) :=
  match m with
  | [] => [(k, v)]
  | kv :: rest => if kv.1 = k then (k, v) :: rest else kv :: insertRec rest k v

/-- Go map read: `some` the stored record, `none` for an absent day (the
nil pointer of the source). -/
def lookupRec (m : List (Int × SummaryRecord)) (k : Int) :
    Option SummaryRecord :=
  match m with
  | [] => none
  | kv :: rest => if kv.1 = k then some kv.2 else lookupRec rest k

/-- `timeSeriesData` of `charts/charts.go`.  Date labels are kept as day
numbers; the source formats each day with a fixed, day-injective format
(`consts.ChartDateFormat`). -/
structure TimeSeriesData where
  dates : List Int
  lookup : List (Int × SummaryRecord)
  start : Int
deriving DecidableEq, Repr

/-- The date axis `for d := start; !d.After(end); d = d.AddDate(0,0,1)`. -/
def rangeDays (s e : Int) : List Int :=
  (List.range (e - s + 1).toNat).map (fun (i : Nat) => s + (i : Int))

/-- `buildTimeSeriesData` of `charts/charts.go`: day-to-record lookup and
one date label per calendar day from the first to the last record. -/
def buildTimeSeriesData (summaries : List SummaryRecord) : TimeSeriesData :=
  match summaries with
  | [] => ⟨[], [], 0⟩
  | s0 :: _ =>
    ⟨rangeDays s0.time (summaries.getLastD s0).time,
     summaries.foldl (fun m s => insertRec m s.time s) [],
     s0.time⟩

/-- The scan state of `findGaps`. -/
structure GapState where
  gaps : List (Int × Int)
  inGap : Bool
  gapStart : Int
deriving DecidableEq, Repr

/-- The `for i := range ts.Dates` loop of `findGaps`: `n` days remain,
`d` is the current day. -/
def gapsLoop (hasData : Int → Bool) : Nat → Int → GapState → GapState
  | 0, _, st => st
  | n + 1, d, st =>
    if hasData d = false ∧ st.inGap = false then
      gapsLoop hasData n (d + 1) ⟨st.gaps, true, d⟩
    else if hasData d = true ∧ st.inGap = true then
      gapsLoop hasData n (d + 1) ⟨st.gaps ++ [(st.gapStart, d - 1)], false, st.gapStart⟩
    else gapsLoop hasData n (d + 1) st

/-- `findGaps` of `charts/charts.go`: the [start, end] day ranges of the
contiguous runs of days without a summary. -/
def findGaps (ts : TimeSeriesData) : List (Int × Int) :=
  if ts.dates.isEmpty then []
  else
    let st := gapsLoop (fun d => (lookupRec ts.lookup d).isSome)
      ts.dates.length ts.start ⟨[], false, 0⟩
    if st.inGap then
      st.gaps ++ [(st.gapStart, ts.start + ((ts.dates.length : Int) - 1))]
    else st.gaps

/-! ## Rolling-window top-N version selection (`buildVersionsChart`) -/

/-- `consts.TopVersionsCount`. -/
def TopVersionsCount : Nat := 15

/-- The inner `for version, count := range s.Data.Versions` accumulation. -/
def mergeCounts (m : CMap) (vm : CMap) : CMap :=
  vm.foldl (fun acc kv => incrBy acc kv.1 kv.2) m

/-- The day of the last summary of the list (`summaries[len-1].Time`). -/
def lastTime (summaries : List SummaryRecord) : Int :=
  ((summaries.getLast?).map (fun s => s.time)).getD 0

/-- The `versionTotals` accumulation of `buildVersionsChart`: per-version
counts summed over the records of the trailing window
`!s.Time.Before(lastDate.AddDate(0, 0, -w))`, that is over the records
with `cutoff ≤ time`.  The window size `w` is the source's
`consts.VersionSelectionDays`. -/
def versionTotals (summaries : List SummaryRecord) (w : Nat) : CMap :=
  let cutoff := lastTime summaries - (w : Int)
  summaries.foldl
    (fun m s => if cutoff ≤ s.time then mergeCounts m s.data.versions else m) []

/-- `getTopKeys` of `charts/charts.go`: the keys of the `n` largest values,
sorted by value descending.  The source sorts the pair slice obtained from
a Go map iteration with an unstable sort, so the order among equal values
is unspecified; the embedding sorts the association list, which fixes one
of the admissible outcomes. -/
def getTopKeys (m : CMap) (n : Nat) : List String :=
  let pairs := List.insertionSort (fun a b : String × Nat => b.2 ≤ a.2) m
  (pairs.map (fun kv => kv.1)).take n

/-- The top-N selection of `buildVersionsChart`: the versions with the `N`
(= `TopVersionsCount`) largest totals over the trailing window of size
`w`. -/
def selectTopVersions (summaries : List SummaryRecord) (w : Nat) :
    List String :=
  getTopKeys (versionTotals summaries w) TopVersionsCount

/-- All-time total of one version over a summary list (what the selection
would use were it not windowed). -/
def allTimeTotal (summaries : List SummaryRecord) (v : String) : Nat :=
  (summaries.map (fun s => lookup0 s.data.versions v)).sum

/-! ## Counter-map lemmas -/

/-- The keys of a counter map. -/
def keysOf (m : CMap) : List String := m.map (fun kv => kv.1)

theorem lookup0_incrBy_self (m : CMap) (k : String) (n : Nat) :
    lookup0 (incrBy m k n) k = lookup0 m k + n := by
  induction m with
  | nil => simp [lookup0, incrBy]
  | cons kv rest ih =>
    by_cases h : kv.1 = k <;> simp [lookup0, incrBy, h, ih]

theorem lookup0_incrBy_ne (m : CMap) (k : String) (n : Nat) (k' : String)
    (h : k' ≠ k) : lookup0 (incrBy m k n) k' = lookup0 m k' := by
  induction m with
  | nil => simp [lookup0, incrBy, Ne.symm h]
  | cons kv rest ih =>
    by_cases hk : kv.1 = k
    · simp [lookup0, incrBy, hk, Ne.symm h]
    · by_cases hk2 : kv.1 = k' <;> simp [lookup0, incrBy, hk, hk2, ih, h]

theorem lookup0_maxIns_self (m : CMap) (k : String) (n : Nat) :
    lookup0 (maxIns m k n) k = max (lookup0 m k) n := by
  induction m with
  | nil => simp [lookup0, maxIns]
  | cons kv rest ih =>
    by_cases h : kv.1 = k <;> simp [lookup0, maxIns, h, ih]

theorem lookup0_maxIns_ne (m : CMap) (k : String) (n : Nat) (k' : String)
    (h : k' ≠ k) : lookup0 (maxIns m k n) k' = lookup0 m k' := by
  induction m with
  | nil => simp [lookup0, maxIns, Ne.symm h]
  | cons kv rest ih =>
    by_cases hk : kv.1 = k
    · simp [lookup0, maxIns, hk, Ne.symm h]
    · by_cases hk2 : kv.1 = k' <;> simp [lookup0, maxIns, hk, hk2, ih, h]

theorem keysOf_maxIns (m : CMap) (k : String) (n : Nat) :
    keysOf (maxIns m k n) = if k ∈ keysOf m then keysOf m else keysOf m ++ [k] := by
  induction m with
  | nil => simp [keysOf, maxIns]
  | cons kv rest ih =>
    by_cases h : kv.1 = k
    · simp [keysOf, maxIns, h]
    · simp only [keysOf, maxIns, if_neg h, List.map_cons, List.mem_cons] at ih ⊢
      rw [ih]
      by_cases hm : k ∈ List.map (fun kv => kv.1) rest <;>
        simp [hm, Ne.symm h]

theorem nodup_keysOf_maxIns (m : CMap) (k : String) (n : Nat)
    (h : (keysOf m).Nodup) : (keysOf (maxIns m k n)).Nodup := by
  rw [keysOf_maxIns]
  split
  · exact h
  · next hk => simpa [List.nodup_append] using ⟨h, hk⟩

theorem incrBy_of_notMem (m : CMap) (k : String) (n : Nat)
    (h : k ∉ keysOf m) : incrBy m k n = m ++ [(k, n)] := by
  induction m with
  | nil => simp [incrBy]
  | cons kv rest ih =>
    simp only [keysOf, List.map_cons, List.mem_cons] at h
    push_neg at h
    simp [incrBy, Ne.symm h.1, ih h.2]

theorem foldl_incrBy_acc (seen : CMap) :
    ∀ acc : CMap, (∀ k ∈ keysOf seen, k ∉ keysOf acc) → (keysOf seen).Nodup →
      seen.foldl (fun pl kv => incrBy pl kv.1 kv.2) acc = acc ++ seen := by
  induction seen with
  | nil => simp
  | cons kv rest ih =>
    intro acc hdisj hnd
    simp only [keysOf, List.map_cons, List.nodup_cons] at hnd
    simp only [keysOf, List.map_cons, List.mem_cons] at hdisj
    simp only [List.foldl_cons]
    rw [incrBy_of_notMem acc kv.1 kv.2 (hdisj kv.1 (Or.inl rfl))]
    rw [ih (acc ++ [(kv.1, kv.2)]) ?_ hnd.2]
    · simp
    · intro k hk
      have hk' : k ∈ List.map (fun kv => kv.1) rest := hk
      simp only [keysOf, List.map_append, List.mem_append, List.map_cons,
        List.map_nil, List.mem_singleton]
      push_neg
      refine ⟨hdisj k (Or.inr hk'), fun hc => ?_⟩
      subst hc
      exact hnd.1 hk'

/-! ## Iteration-order invariance of the classifier

Go iterates the `playersTypes` map in an unspecified, per-run randomized
order.  The result of `find?` over a list is invariant under permutation
whenever at most one element satisfies the predicate. -/

theorem find?_perm_of_countP_le_one {α : Type} (p : α → Bool) {l₁ l₂ : List α}
    (h : l₁.Perm l₂) (hc : l₁.countP p ≤ 1) : l₁.find? p = l₂.find? p := by
  induction h with
  | nil => rfl
  | cons x h ih =>
    by_cases hx : p x
    · simp [List.find?, hx]
    · simp only [List.countP_cons, hx] at hc
      simp only [List.find?, hx]
      exact ih (by omega)
  | swap x y l =>
    by_cases hx : p x <;> by_cases hy : p y
    · simp [List.countP_cons, hx, hy] at hc
    · simp [List.find?, hx, hy]
    · simp [List.find?, hx, hy]
    · simp [List.find?, hx, hy]
  | trans h₁ h₂ ih₁ ih₂ =>
    rw [ih₁ hc, ih₂ (by rwa [← h₁.countP_eq])]

/-- How many rules of the source table match an identifier. -/
def matchCount (p : String) : Nat :=
  playersTypes.countP (fun r => r.1.matches p)

theorem classify_perm {rules : List Rule} (h : rules.Perm playersTypes)
    (p : String) (hc : matchCount p ≤ 1) :
    classify rules p = classify playersTypes p := by
  unfold classify
  rw [find?_perm_of_countP_le_one _ h]
  rw [h.countP_eq]
  exact hc

theorem seenStep_perm {rules : List Rule} (h : rules.Perm playersTypes)
    (m : CMap) (pc : String × Nat) (hc : matchCount pc.1 ≤ 1) :
    seenStep rules m pc = seenStep playersTypes m pc := by
  unfold seenStep
  rw [classify_perm h pc.1 hc]

theorem seenMap_perm {rules : List Rule} (h : rules.Perm playersTypes)
    (ap : PlayerMap) (hap : ∀ pc ∈ ap, matchCount pc.1 ≤ 1) :
    seenMap rules ap = seenMap playersTypes ap := by
  unfold seenMap
  suffices hgen : ∀ m : CMap,
      ap.foldl (seenStep rules) m = ap.foldl (seenStep playersTypes) m by
    exact hgen []
  induction ap with
  | nil => intro m; rfl
  | cons pc rest ih =>
    intro m
    simp only [List.foldl_cons]
    rw [seenStep_perm h m pc (hap pc (by simp))]
    exact ih (fun q hq => hap q (List.mem_cons_of_mem pc hq)) _

theorem mapPlayerTypes_perm {rules : List Rule} (h : rules.Perm playersTypes)
    (ap : PlayerMap) (hap : ∀ pc ∈ ap, matchCount pc.1 ≤ 1) (m : CMap) :
    mapPlayerTypes rules ap m = mapPlayerTypes playersTypes ap m := by
  unfold mapPlayerTypes
  rw [seenMap_perm h ap hap]

/-! ## Per-label maxima of the seen map -/

theorem lookup0_seenMap_foldl (rules : List Rule) (lbl : String)
    (hlbl : lbl ≠ "") :
    ∀ (ap : PlayerMap) (m : CMap),
      lookup0 (ap.foldl (seenStep rules) m) lbl =
      max (lookup0 m lbl)
        (((ap.filter (fun pc => classify rules pc.1 = lbl)).map
          (fun pc => pc.2)).foldr max 0) := by
  intro ap
  induction ap with
  | nil => intro m; simp
  | cons pc rest ih =>
    intro m
    simp only [List.foldl_cons, List.filter_cons]
    by_cases hc : classify rules pc.1 = lbl
    · have hstep : seenStep rules m pc = maxIns m lbl pc.2 := by
        unfold seenStep
        rw [hc, if_pos hlbl]
      rw [hstep, ih (maxIns m lbl pc.2), lookup0_maxIns_self,
        if_pos (by simpa using hc)]
      simp only [List.map_cons, List.foldr_cons]
      omega
    · rw [if_neg (by simpa using hc)]
      by_cases hz : classify rules pc.1 = ""
      · have hstep : seenStep rules m pc = m := by
          unfold seenStep
          rw [hz]
          simp
        rw [hstep]
        exact ih m
      · have hstep : seenStep rules m pc =
            maxIns m (classify rules pc.1) pc.2 := by
          unfold seenStep
          rw [if_pos hz]
        rw [hstep, ih (maxIns m (classify rules pc.1) pc.2),
          lookup0_maxIns_ne _ _ _ _ (fun h => hc h.symm)]

theorem lookup0_seenMap (rules : List Rule) (ap : PlayerMap) (lbl : String)
    (hlbl : lbl ≠ "") :
    lookup0 (seenMap rules ap) lbl =
      ((ap.filter (fun pc => classify rules pc.1 = lbl)).map
        (fun pc => pc.2)).foldr max 0 := by
  unfold seenMap
  rw [lookup0_seenMap_foldl rules lbl hlbl ap []]
  simp [lookup0]

theorem nodup_keysOf_seenMap (rules : List Rule) (ap : PlayerMap) :
    (keysOf (seenMap rules ap)).Nodup := by
  unfold seenMap
  suffices hgen : ∀ m : CMap, (keysOf m).Nodup →
      (keysOf (ap.foldl (seenStep rules) m)).Nodup by
    exact hgen [] (by simp [keysOf])
  induction ap with
  | nil => intro m hm; exact hm
  | cons pc rest ih =>
    intro m hm
    simp only [List.foldl_cons]
    by_cases hz : classify rules pc.1 = ""
    · have hstep : seenStep rules m pc = m := by
        unfold seenStep
        rw [hz]
        simp
      rw [hstep]
      exact ih m hm
    · have hstep : seenStep rules m pc =
          maxIns m (classify rules pc.1) pc.2 := by
        unfold seenStep
        rw [if_pos hz]
      rw [hstep]
      exact ih _ (nodup_keysOf_maxIns _ _ _ hm)

theorem mapPlayerTypes_fst_nil (rules : List Rule) (ap : PlayerMap) :
    (mapPlayerTypes rules ap []).1 = seenMap rules ap := by
  unfold mapPlayerTypes
  simp only
  rw [foldl_incrBy_acc _ [] (by simp [keysOf]) (nodup_keysOf_seenMap rules ap)]
  simp

theorem foldl_add_snd (l : List (String × Nat)) :
    ∀ init : Nat, l.foldl (fun t kv => t + kv.2) init =
      init + (l.map (fun kv => kv.2)).sum := by
  induction l with
  | nil => simp
  | cons kv rest ih =>
    intro init
    simp only [List.foldl_cons, List.map_cons, List.sum_cons]
    rw [ih]
    omega

theorem mapPlayerTypes_snd (rules : List Rule) (ap : PlayerMap) (m : CMap) :
    (mapPlayerTypes rules ap m).2 =
      ((seenMap rules ap).map (fun kv => kv.2)).sum := by
  unfold mapPlayerTypes
  simp only
  rw [foldl_add_snd]
  omega

/-! ## Claims C1 and C5 -/

/-- C1, counterexample.  The claim says that for the active-player map
with raw identifiers "feishin_" and "Feishin" (one session each) both
identifiers match the discard rule for "feishin", so the per-label map is
empty and the total is 0.  On the code the rule regexp "feishin" is
case-sensitive: "Feishin" matches no rule, is kept as its own label, and
the result is the map holding "Feishin" with count 1 and total 1 — not the
empty map with total 0.  (The repository's own test expects exactly this.) -/
theorem c1_player_discard_counterexample :
    mapPlayerTypes playersTypes [("feishin_", 1), ("Feishin", 1)] [] ≠
      ([], 0) := by
  decide

/-- C1, amended: for the active-player map with raw identifiers "feishin_"
and "Feishin" (one session each), the identifier "feishin_" matches the
case-sensitive discard rule for "feishin" and is dropped, while "Feishin"
matches no rule and is kept as its own label; the resulting per-label map
holds exactly "Feishin" with count 1 and the returned total active-player
count is 1, whatever iteration order the runtime chooses for the rule
table. -/
theorem c1_player_discard (rules : List Rule) (h : rules.Perm playersTypes) :
    mapPlayerTypes rules [("feishin_", 1), ("Feishin", 1)] [] =
      ([("Feishin", 1)], 1) := by
  rw [mapPlayerTypes_perm h _ (by decide)]
  decide

theorem c1_player_discard_witness :
    mapPlayerTypes playersTypes [("feishin_", 1), ("Feishin", 1)] [] =
      ([("Feishin", 1)], 1) :=
  c1_player_discard playersTypes (List.Perm.refl _)

/-- C5: for every active-player map, the count contributed for a canonical
label is the maximum (not the sum) of the raw counts collapsing onto it,
and the returned total is the sum of the per-label maxima; in particular
the map with "playSub_iPhone11" at 2 and "playSub" at 1 collapses onto the
label "play:Sub" with count max(2,1) = 2 and returned total 2. -/
theorem c5_player_collapse_max :
    (∀ ap : PlayerMap,
      (∀ lbl, lbl ≠ "" →
        lookup0 (mapPlayerTypes playersTypes ap []).1 lbl =
          ((ap.filter (fun pc => classify playersTypes pc.1 = lbl)).map
            (fun pc => pc.2)).foldr max 0) ∧
      (mapPlayerTypes playersTypes ap []).2 =
        (((mapPlayerTypes playersTypes ap []).1).map (fun kv => kv.2)).sum) ∧
    mapPlayerTypes playersTypes [("playSub_iPhone11", 2), ("playSub", 1)] [] =
      ([("play:Sub", 2)], 2) := by
  refine ⟨fun ap => ⟨fun lbl hlbl => ?_, ?_⟩, by decide⟩
  · rw [mapPlayerTypes_fst_nil]
    exact lookup0_seenMap playersTypes ap lbl hlbl
  · rw [mapPlayerTypes_fst_nil, mapPlayerTypes_snd]

theorem c5_player_collapse_max_witness :
    lookup0 (mapPlayerTypes playersTypes
        [("playSub_iPhone11", 2), ("playSub", 1)] []).1 "play:Sub" = 2 := by
  have h := (c5_player_collapse_max.1
    [("playSub_iPhone11", 2), ("playSub", 1)]).1 "play:Sub" (by decide)
  simpa using h

/-! ## Claim C3: binning -/

theorem find?_descending_max (c : Int) :
    ∀ l : List Int, List.Sorted (fun a b : Int => b ≤ a) l →
      ∀ b, l.find? (fun b => decide (b ≤ c)) = some b →
        b ∈ l ∧ b ≤ c ∧ ∀ x ∈ l, x ≤ c → x ≤ b := by
  intro l
  induction l with
  | nil => intro _ b hb; simp [List.find?] at hb
  | cons a t ih =>
    intro hs b hb
    rw [List.sorted_cons] at hs
    by_cases ha : a ≤ c
    · rw [List.find?_cons_of_pos _ (by simpa using ha)] at hb
      obtain rfl : a = b := by simpa using hb
      refine ⟨by simp, ha, fun x hx _ => ?_⟩
      rcases List.mem_cons.mp hx with rfl | hx
      · exact le_refl x
      · exact hs.1 x hx
    · rw [List.find?_cons_of_neg _ (by simpa using ha)] at hb
      obtain ⟨hmem, hbc, hmax⟩ := ih hs.2 b hb
      refine ⟨List.mem_cons_of_mem a hmem, hbc, fun x hx hxc => ?_⟩
      rcases List.mem_cons.mp hx with rfl | hx
      · exact absurd hxc ha
      · exact hmax x hx hxc

/-- C3: for every ascending threshold list and every count at least the
lowest threshold, `mapToBins` increments exactly the counter keyed by the
decimal form of the largest threshold not exceeding the count, by exactly
one per call (two calls add exactly two); a count below every threshold
changes nothing. -/
theorem c3_mapToBins (bins : List Int) (c : Int) (m : CMap)
    (hs : List.Sorted (fun a b : Int => a ≤ b) bins) :
    ((∃ b0 ∈ bins, b0 ≤ c) →
      ∃ bmax, bmax ∈ bins ∧ bmax ≤ c ∧ (∀ b ∈ bins, b ≤ c → b ≤ bmax) ∧
        mapToBins c bins m = incr m (toString bmax) ∧
        lookup0 (mapToBins c bins m) (toString bmax) =
          lookup0 m (toString bmax) + 1 ∧
        (∀ k, k ≠ toString bmax →
          lookup0 (mapToBins c bins m) k = lookup0 m k) ∧
        lookup0 (mapToBins c bins (mapToBins c bins m)) (toString bmax) =
          lookup0 m (toString bmax) + 2 ∧
        (∀ k, k ≠ toString bmax →
          lookup0 (mapToBins c bins (mapToBins c bins m)) k = lookup0 m k)) ∧
    ((∀ b ∈ bins, c < b) → mapToBins c bins m = m) := by
  constructor
  · rintro ⟨b0, hb0, hb0c⟩
    have hrev : List.Sorted (fun a b : Int => b ≤ a) bins.reverse := by
      rw [List.Sorted, List.pairwise_reverse]
      exact hs
    have hsome : (bins.reverse.find? (fun b => decide (b ≤ c))).isSome := by
      rw [List.find?_isSome]
      exact ⟨b0, by simpa using hb0, by simpa using hb0c⟩
    obtain ⟨b, hfind⟩ := Option.isSome_iff_exists.mp hsome
    obtain ⟨hmem, hbc, hmax⟩ := find?_descending_max c bins.reverse hrev b hfind
    have heq : mapToBins c bins m = incr m (toString b) := by
      unfold mapToBins
      rw [hfind]
    have heq2 : mapToBins c bins (mapToBins c bins m) =
        incr (incr m (toString b)) (toString b) := by
      rw [heq]
      unfold mapToBins
      rw [hfind]
    refine ⟨b, by simpa using hmem, hbc,
      fun x hx hxc => hmax x (by simpa using hx) hxc, heq, ?_, ?_, ?_, ?_⟩
    · rw [heq, incr, lookup0_incrBy_self]
    · intro k hk
      rw [heq, incr, lookup0_incrBy_ne _ _ _ _ hk]
    · rw [heq2]
      simp only [incr]
      rw [lookup0_incrBy_self, lookup0_incrBy_self]
    · intro k hk
      rw [heq2]
      simp only [incr]
      rw [lookup0_incrBy_ne _ _ _ _ hk, lookup0_incrBy_ne _ _ _ _ hk]
  · intro hlow
    unfold mapToBins
    have : bins.reverse.find? (fun b => decide (b ≤ c)) = none := by
      rw [List.find?_eq_none]
      intro x hx
      simpa using not_le.mpr (hlow x (by simpa using hx))
    rw [this]

theorem c3_mapToBins_witness :
    mapToBins (-3) [0, 1, 100] [] = [] ∧
      mapToBins 50 [0, 1, 100] [] = [("1", 1)] :=
  ⟨(c3_mapToBins [0, 1, 100] (-3) [] (by decide)).2 (by decide), by decide⟩

/-! ## Claim C4: statistics -/

theorem sorted_le_getLast :
    ∀ (l : List Int), List.Sorted (fun a b : Int => a ≤ b) l →
      ∀ (h : l ≠ []) (x : Int), x ∈ l → x ≤ l.getLast h := by
  intro l
  induction l with
  | nil => intro _ h; exact absurd rfl h
  | cons a t ih =>
    intro hs h x hx
    rw [List.sorted_cons] at hs
    by_cases ht : t = []
    · subst ht
      simp only [List.mem_singleton] at hx
      simp [hx]
    · rw [List.getLast_cons ht]
      rcases List.mem_cons.mp hx with rfl | hx
      · exact le_trans (hs.1 _ (List.getLast_mem ht)) (le_refl _)
      · exact ih hs.2 ht x hx

theorem foldl_add_map_q (f : Int → ℚ) (l : List Int) :
    ∀ init : ℚ, l.foldl (fun acc v => acc + f v) init = init + (l.map f).sum := by
  induction l with
  | nil => simp
  | cons v rest ih =>
    intro init
    simp only [List.foldl_cons, List.map_cons, List.sum_cons]
    rw [ih]
    ring

/-- C4: for every non-empty integer sample, `calcStats` returns the
smallest element as min, the largest as max, the arithmetic mean, the
median of the ascending rearrangement (middle element for odd size,
average of the two middles for even size) and the population variance
(sum of squared deviations over N; the Go struct stores its square root
as the standard deviation); for `[1,2,3,4]` this gives min 1, max 4,
mean 5/2, median 5/2 and variance 5/4 (standard deviation √1.25); the
empty sample yields `none`, not a zeroed record. -/
theorem c4_calcStats :
    (∀ values : List Int, values ≠ [] →
      ∃ stats, calcStats values = some stats ∧
        stats.min ∈ values ∧ (∀ v ∈ values, stats.min ≤ v) ∧
        stats.max ∈ values ∧ (∀ v ∈ values, v ≤ stats.max) ∧
        stats.mean = (values.sum : ℚ) / (values.length : ℚ) ∧
        (∀ sorted : List Int, sorted.Perm values →
          List.Sorted (fun a b : Int => a ≤ b) sorted →
          stats.median =
            if values.length % 2 = 0 then
              ((sorted.getD (values.length / 2 - 1) 0 : ℚ) +
                (sorted.getD (values.length / 2) 0 : ℚ)) / 2
            else (sorted.getD (values.length / 2) 0 : ℚ)) ∧
        stats.variance =
          ((values.map (fun (v : Int) => ((v : ℚ) - stats.mean) ^ 2)).sum) /
            (values.length : ℚ)) ∧
    calcStats [1, 2, 3, 4] = some ⟨1, 4, 5/2, 5/2, 5/4⟩ ∧
    calcStats [] = none := by
  refine ⟨?_, ?_, rfl⟩
  · intro values hne
    have hemp : values.isEmpty = false := by
      cases values
      · exact absurd rfl hne
      · rfl
    have hperm : (List.insertionSort (· ≤ ·) values).Perm values :=
      List.perm_insertionSort _ _
    have hsort : List.Sorted (fun a b : Int => a ≤ b)
        (List.insertionSort (· ≤ ·) values) :=
      List.sorted_insertionSort _ _
    set s := List.insertionSort (· ≤ ·) values with hs
    have hsne : s ≠ [] := by
      intro h
      exact hne (List.Perm.eq_nil (h ▸ hperm).symm)
    have hlen : s.length = values.length := hperm.length_eq
    have hsum : s.foldl (· + ·) 0 = values.sum := by
      rw [← List.sum_eq_foldl]
      exact hperm.sum_eq
    unfold calcStats
    rw [hemp]
    simp only [Bool.false_eq_true, if_false, ← hs]
    refine ⟨_, rfl, ?_, ?_, ?_, ?_, ?_, ?_, ?_⟩
    · -- min is a member
      obtain ⟨a, t, hat⟩ := List.exists_cons_of_ne_nil hsne
      have : s.headD 0 ∈ s := by rw [hat]; simp
      exact hperm.mem_iff.mp this
    · -- min is a lower bound
      intro v hv
      obtain ⟨a, t, hat⟩ := List.exists_cons_of_ne_nil hsne
      have hvs : v ∈ s := hperm.mem_iff.mpr hv
      show s.headD 0 ≤ v
      rw [hat] at hvs hsort ⊢
      rw [List.sorted_cons] at hsort
      simp only [List.headD_cons]
      rcases List.mem_cons.mp hvs with rfl | hvs
      · exact le_refl v
      · exact hsort.1 v hvs
    · -- max is a member
      have : s.getLastD 0 ∈ s := by
        rw [List.getLastD_eq_getLast?, List.getLast?_eq_getLast s hsne]
        exact List.getLast_mem hsne
      exact hperm.mem_iff.mp this
    · -- max is an upper bound
      intro v hv
      have hvs : v ∈ s := hperm.mem_iff.mpr hv
      show v ≤ s.getLastD 0
      rw [List.getLastD_eq_getLast?, List.getLast?_eq_getLast s hsne]
      exact sorted_le_getLast s hsort hsne v hvs
    · -- mean
      show ((s.foldl (· + ·) 0 : Int) : ℚ) / (s.length : ℚ) =
        (values.sum : ℚ) / (values.length : ℚ)
      rw [hsum, hlen]
    · -- median: the sorted rearrangement is unique
      intro sorted hp hsrt
      have heqs : sorted = s :=
        List.eq_of_perm_of_sorted (hp.trans hperm.symm) hsrt hsort
      subst heqs
      show (if s.length % 2 = 0 then
          ((s.getD (s.length / 2 - 1) 0 + s.getD (s.length / 2) 0 : Int) : ℚ) / 2
        else ((s.getD (s.length / 2) 0 : Int) : ℚ)) = _
      rw [hlen]
      split
      · push_cast
        ring
      · rfl
    · -- variance
      show (s.foldl (fun (acc : ℚ) (v : Int) => acc +
          ((v : ℚ) - ((s.foldl (· + ·) 0 : Int) : ℚ) / (s.length : ℚ)) ^ 2) 0) /
            (s.length : ℚ) =
        (values.map (fun (v : Int) => ((v : ℚ) -
          ((s.foldl (· + ·) 0 : Int) : ℚ) / (s.length : ℚ)) ^ 2)).sum /
            (values.length : ℚ)
      rw [foldl_add_map_q
        (fun v : Int => ((v : ℚ) - ((s.foldl (· + ·) 0 : Int) : ℚ) / (s.length : ℚ)) ^ 2) s 0]
      rw [zero_add, (hperm.map _).sum_eq, hlen]
  · norm_num [calcStats, List.insertionSort, List.orderedInsert]

theorem c4_calcStats_witness :
    ∃ stats, calcStats [5, 7] = some stats ∧
      stats.min ∈ [(5 : Int), 7] ∧ (∀ v ∈ [(5 : Int), 7], stats.min ≤ v) ∧
      stats.max ∈ [(5 : Int), 7] ∧ (∀ v ∈ [(5 : Int), 7], v ≤ stats.max) ∧
      stats.mean = (([(5 : Int), 7].sum : ℚ)) / (([(5 : Int), 7].length : ℚ)) ∧
      (∀ sorted : List Int, sorted.Perm [(5 : Int), 7] →
        List.Sorted (fun a b : Int => a ≤ b) sorted →
        stats.median =
          if [(5 : Int), 7].length % 2 = 0 then
            ((sorted.getD ([(5 : Int), 7].length / 2 - 1) 0 : ℚ) +
              (sorted.getD ([(5 : Int), 7].length / 2) 0 : ℚ)) / 2
          else (sorted.getD ([(5 : Int), 7].length / 2) 0 : ℚ)) ∧
      stats.variance =
        (([(5 : Int), 7].map (fun (v : Int) => ((v : ℚ) - stats.mean) ^ 2)).sum) /
          (([(5 : Int), 7].length : ℚ)) :=
  c4_calcStats.1 [5, 7] (by decide)

/-! ## Claims C6 and C10: the incomplete-day trim -/

theorem trimRev_is_drop :
    ∀ l : List SummaryRecord, ∃ j, j ≤ l.length ∧ trimRev l = l.drop j := by
  intro l
  induction l with
  | nil => exact ⟨0, by simp [trimRev]⟩
  | cons a t ih =>
    cases t with
    | nil => exact ⟨0, by simp [trimRev]⟩
    | cons b t' =>
      by_cases hcond : 0 < b.data.numInstances ∧
          5 * a.data.numInstances < 4 * b.data.numInstances
      · obtain ⟨j, hj, hdrop⟩ := ih
        refine ⟨j + 1, by simpa using hj, ?_⟩
        rw [trimRev, if_pos hcond, hdrop]
        rfl
      · exact ⟨0, Nat.zero_le _, by rw [trimRev, if_neg hcond]; rfl⟩

theorem reverse_drop_reverse (l : List SummaryRecord) (j : Nat)
    (hj : j ≤ l.length) :
    (l.reverse.drop j).reverse = l.take (l.length - j) := by
  have h : (l.take (l.length - j)).reverse =
      l.reverse.drop (l.length - (l.length - j)) := List.reverse_take
  rw [Nat.sub_sub_self hj] at h
  rw [← h, List.reverse_reverse]

/-- C10: the incomplete-day trim only removes elements from the tail — its
result is always a prefix (`take`) of the input, every retained record
unchanged and in place — and the empty input yields the empty result. -/
theorem c10_trim_frame :
    ExcludeIncompleteDays [] = [] ∧
    ∀ l : List SummaryRecord, ∃ k, ExcludeIncompleteDays l = l.take k := by
  refine ⟨rfl, fun l => ?_⟩
  obtain ⟨j, hj, hdrop⟩ := trimRev_is_drop l.reverse
  rw [List.length_reverse] at hj
  by_cases hnil : l.isEmpty
  · refine ⟨0, ?_⟩
    rw [List.isEmpty_iff] at hnil
    subst hnil
    rfl
  · refine ⟨l.length - j, ?_⟩
    unfold ExcludeIncompleteDays
    rw [if_neg (by simp [hnil]), hdrop, reverse_drop_reverse l j hj]

/-- The exact-arithmetic form of the drop test, spelled as the spec does:
the ratio of the trailing count to its predecessor is below 0.8. -/
theorem dropRatio_iff (a p : Int) (hp : 0 < p) :
    ((a : ℚ) / (p : ℚ) < 4/5) ↔ (5 * a < 4 * p) := by
  rw [div_lt_div_iff₀ (by exact_mod_cast hp) (by norm_num : (0:ℚ) < 5)]
  rw [mul_comm (a : ℚ) 5]
  constructor <;> intro h <;> exact_mod_cast h

/-- The six-day instance-count example of the spec: 1000, 1050, 1100, 700,
100, 50. -/
def instRec (t n : Int) : SummaryRecord :=
  ⟨t, { emptySummary with numInstances := n }⟩

def exTrim : List SummaryRecord :=
  [instRec 0 1000, instRec 1 1050, instRec 2 1100, instRec 3 700,
   instRec 4 100, instRec 5 50]

set_option maxHeartbeats 1000000 in
/-- C6: on summaries with positive instance counts the trim satisfies the
iteration the spec describes: a list of length at most one is returned
unchanged; otherwise, writing the list as `pre ++ [last]` with `prev` the
last element of `pre`, if the ratio of the numInstances of `last` to that
of `prev` is below 0.8 the trim of the list equals the trim of `pre`
(the last element is removed and the loop continues), and otherwise the
list is returned unchanged (the loop stops at the first pair not showing
the drop); in particular the instance-count sequence
[1000, 1050, 1100, 700, 100, 50] trims to its first three days. -/
theorem c6_trim :
    (∀ l : List SummaryRecord, (∀ s ∈ l, 0 < s.data.numInstances) →
      (l.length ≤ 1 → ExcludeIncompleteDays l = l) ∧
      (∀ (pre : List SummaryRecord) (last prev : SummaryRecord),
        l = pre ++ [last] → pre.getLast? = some prev →
        (((last.data.numInstances : ℚ) / (prev.data.numInstances : ℚ) < 4/5 →
          ExcludeIncompleteDays l = ExcludeIncompleteDays pre) ∧
        (¬((last.data.numInstances : ℚ) / (prev.data.numInstances : ℚ) < 4/5) →
          ExcludeIncompleteDays l = l)))) ∧
    ExcludeIncompleteDays exTrim = exTrim.take 3 := by
  constructor
  · intro l hpos
    constructor
    · intro hlen
      rcases l with _ | ⟨a, _ | ⟨b, t⟩⟩
      · rfl
      · rfl
      · exfalso
        simp [List.length_cons] at hlen
    · intro pre last prev hsplit hprev
      obtain ⟨pre', hpre'⟩ := List.getLast?_eq_some_iff.mp hprev
      have hprevmem : prev ∈ l := by
        rw [hsplit, hpre']
        simp
      have hprevpos : 0 < prev.data.numInstances := hpos prev hprevmem
      have hrev : l.reverse = last :: prev :: pre'.reverse := by
        rw [hsplit, hpre']
        simp
      have hratio := dropRatio_iff last.data.numInstances
        prev.data.numInstances hprevpos
      constructor
      · intro hlt
        have hcond : 0 < prev.data.numInstances ∧
            5 * last.data.numInstances < 4 * prev.data.numInstances :=
          ⟨hprevpos, hratio.mp hlt⟩
        have hpre_rev : pre.reverse = prev :: pre'.reverse := by
          rw [hpre']
          simp
        unfold ExcludeIncompleteDays
        rw [if_neg (by simp [hsplit]), if_neg (by simp [hpre'])]
        rw [hrev, trimRev, if_pos hcond, hpre_rev]
      · intro hge
        have hcond : ¬(0 < prev.data.numInstances ∧
            5 * last.data.numInstances < 4 * prev.data.numInstances) := by
          intro hc
          exact hge (hratio.mpr hc.2)
        unfold ExcludeIncompleteDays
        rw [if_neg (by simp [hsplit]), hrev, trimRev, if_neg hcond, ← hrev,
          List.reverse_reverse]
  · decide

set_option maxHeartbeats 2000000 in
theorem c6_trim_witness :
    ExcludeIncompleteDays [instRec 0 5] = [instRec 0 5] ∧
    ExcludeIncompleteDays (exTrim.take 4) =
      ExcludeIncompleteDays (exTrim.take 3) :=
  ⟨(c6_trim.1 [instRec 0 5] (by decide)).1 (by decide),
   ((c6_trim.1 (exTrim.take 4) (by decide)).2 (exTrim.take 3)
     (instRec 3 700) (instRec 2 1100) (by decide) (by decide)).1
     (by norm_num [instRec, emptySummary])⟩

/-! ## Claim C9: idempotence of the version normalizer -/

theorem mapVersionGo_nil : ∀ f : Nat, mapVersionGo f [] = [] := by
  intro f
  cases f <;> rfl

theorem mapVersionGo_fuel :
    ∀ (f₁ : Nat) (l : List Char) (f₂ : Nat), l.length ≤ f₁ → l.length ≤ f₂ →
      mapVersionGo f₁ l = mapVersionGo f₂ l := by
  intro f₁
  induction f₁ with
  | zero =>
    intro l f₂ h1 _
    have hl : l = [] := List.eq_nil_of_length_eq_zero (Nat.le_zero.mp h1)
    subst hl
    rw [mapVersionGo_nil, mapVersionGo_nil]
  | succ f ih =>
    intro l f₂ h1 h2
    cases l with
    | nil => rw [mapVersionGo_nil, mapVersionGo_nil]
    | cons c rest =>
      cases f₂ with
      | zero => simp at h2
      | succ f₂' =>
        have hr1 : rest.length ≤ f := by simpa using h1
        have hr2 : rest.length ≤ f₂' := by simpa using h2
        have htail : ((rest.dropWhile isHexDigit).tail).length ≤ rest.length :=
          le_trans (by rw [List.length_tail]; exact Nat.sub_le _ _)
            (List.dropWhile_sublist isHexDigit).length_le
        simp only [mapVersionGo]
        by_cases hc : c = '(' ∧ shaMatch rest
        · rw [if_pos hc, if_pos hc,
            ih ((rest.dropWhile isHexDigit).tail) f₂'
              (le_trans htail hr1) (le_trans htail hr2)]
        · rw [if_neg hc, if_neg hc, ih rest f₂' hr1 hr2]

theorem mvAux_cons (c : Char) (rest : List Char) :
    mvAux (c :: rest) =
      if c = '(' ∧ shaMatch rest then
        '(' :: ((rest.takeWhile isHexDigit).take 8 ++
          ')' :: mvAux (rest.dropWhile isHexDigit).tail)
      else c :: mvAux rest := by
  have htail : ((rest.dropWhile isHexDigit).tail).length ≤ rest.length :=
    le_trans (by rw [List.length_tail]; exact Nat.sub_le _ _)
      (List.dropWhile_sublist isHexDigit).length_le
  show mapVersionGo (rest.length + 1) (c :: rest) = _
  simp only [mapVersionGo]
  by_cases hc : c = '(' ∧ shaMatch rest
  · rw [if_pos hc, if_pos hc,
      mapVersionGo_fuel rest.length ((rest.dropWhile isHexDigit).tail) _
        htail (le_refl _)]
    rfl
  · rw [if_neg hc, if_neg hc]
    rfl

theorem mvAux_append_of_no_paren :
    ∀ (xs l : List Char), (∀ x ∈ xs, x ≠ '(') →
      mvAux (xs ++ l) = xs ++ mvAux l := by
  intro xs
  induction xs with
  | nil => simp
  | cons x xs' ih =>
    intro l hx
    have hxp : x ≠ '(' := hx x (by simp)
    rw [List.cons_append, mvAux_cons, if_neg (fun hc => hxp hc.1),
      ih l (fun y hy => hx y (by simp [hy]))]
    rfl

theorem mvAux_head_not_hex (l : List Char)
    (h : ∀ d, l.head? = some d → isHexDigit d = false) :
    (mvAux l).takeWhile isHexDigit = [] ∧
      (mvAux l).dropWhile isHexDigit = mvAux l := by
  have hlp : isHexDigit '(' = false := by decide
  cases l with
  | nil => exact ⟨rfl, rfl⟩
  | cons c rest =>
    have hc := h c rfl
    rw [mvAux_cons]
    by_cases hcond : c = '(' ∧ shaMatch rest
    · rw [if_pos hcond]
      exact ⟨by simp [List.takeWhile_cons, hlp],
        by simp [List.dropWhile_cons, hlp]⟩
    · rw [if_neg hcond]
      exact ⟨by simp [List.takeWhile_cons, hc],
        by simp [List.dropWhile_cons, hc]⟩

theorem mvAux_head_rp (l : List Char) (h : (mvAux l).head? = some ')') :
    l.head? = some ')' := by
  cases l with
  | nil => simp [mvAux, mapVersionGo] at h
  | cons c rest =>
    rw [mvAux_cons] at h
    by_cases hcond : c = '(' ∧ shaMatch rest
    · rw [if_pos hcond] at h
      simp at h
    · rw [if_neg hcond] at h
      have hc2 : c = ')' := by simpa using h
      rw [hc2]
      rfl

theorem takeWhile_hex_append (xs l : List Char) :
    (∀ x ∈ xs, isHexDigit x = true) →
      (xs ++ l).takeWhile isHexDigit = xs ++ l.takeWhile isHexDigit ∧
      (xs ++ l).dropWhile isHexDigit = l.dropWhile isHexDigit := by
  induction xs with
  | nil => intro _; exact ⟨rfl, rfl⟩
  | cons x xs' ih =>
    intro hxs
    have hx := hxs x (by simp)
    obtain ⟨h1, h2⟩ := ih (fun y hy => hxs y (by simp [hy]))
    exact ⟨by simp [List.takeWhile_cons, hx, h1],
      by simp [List.dropWhile_cons, hx, h2]⟩

theorem mvAux_scan (rest : List Char) :
    (mvAux rest).takeWhile isHexDigit = rest.takeWhile isHexDigit ∧
      (mvAux rest).dropWhile isHexDigit = mvAux (rest.dropWhile isHexDigit) := by
  have hsplit : rest.takeWhile isHexDigit ++ rest.dropWhile isHexDigit = rest :=
    List.takeWhile_append_dropWhile isHexDigit rest
  have hhex : ∀ x ∈ rest.takeWhile isHexDigit, isHexDigit x = true :=
    fun x hx => List.mem_takeWhile_imp hx
  have hnp : ∀ x ∈ rest.takeWhile isHexDigit, x ≠ '(' := by
    intro x hx heq
    subst heq
    exact absurd (hhex _ hx) (by decide)
  have hd : ∀ d, (rest.dropWhile isHexDigit).head? = some d →
      isHexDigit d = false := by
    intro d hdd
    have hh := List.head?_dropWhile_not isHexDigit rest
    rw [hdd] at hh
    exact hh
  have haux : mvAux rest =
      rest.takeWhile isHexDigit ++ mvAux (rest.dropWhile isHexDigit) := by
    conv_lhs => rw [← hsplit]
    exact mvAux_append_of_no_paren _ _ hnp
  obtain ⟨ht4, hd4⟩ := mvAux_head_not_hex (rest.dropWhile isHexDigit) hd
  obtain ⟨ht7, hd7⟩ := takeWhile_hex_append (rest.takeWhile isHexDigit)
    (mvAux (rest.dropWhile isHexDigit)) hhex
  constructor
  · rw [haux, ht7, ht4, List.append_nil]
  · rw [haux, hd7, hd4]

theorem mvAux_idem_n :
    ∀ (n : Nat) (l : List Char), l.length ≤ n →
      mvAux (mvAux l) = mvAux l := by
  intro n
  induction n with
  | zero =>
    intro l h
    have hl : l = [] := List.eq_nil_of_length_eq_zero (Nat.le_zero.mp h)
    subst hl
    rfl
  | succ n ih =>
    intro l hl
    cases l with
    | nil => rfl
    | cons c rest =>
      have hrl : rest.length ≤ n := by simpa using hl
      have hrp : isHexDigit ')' = false := by decide
      rw [mvAux_cons c rest]
      by_cases hcond : c = '(' ∧ shaMatch rest
      · rw [if_pos hcond]
        obtain ⟨hc, hlen8, hhead⟩ := hcond
        have htail : ((rest.dropWhile isHexDigit).tail).length ≤ rest.length :=
          le_trans (by rw [List.length_tail]; exact Nat.sub_le _ _)
            (List.dropWhile_sublist isHexDigit).length_le
        rw [mvAux_cons]
        have hrun8 : ∀ x ∈ (rest.takeWhile isHexDigit).take 8,
            isHexDigit x = true :=
          fun x hx => List.mem_takeWhile_imp (List.take_subset 8 _ hx)
        obtain ⟨ht7, hd7⟩ := takeWhile_hex_append
          ((rest.takeWhile isHexDigit).take 8)
          (')' :: mvAux (rest.dropWhile isHexDigit).tail) hrun8
        have htw : (((rest.takeWhile isHexDigit).take 8 ++
            ')' :: mvAux (rest.dropWhile isHexDigit).tail).takeWhile
              isHexDigit) = (rest.takeWhile isHexDigit).take 8 := by
          rw [ht7]
          simp [List.takeWhile_cons, hrp]
        have hdw : (((rest.takeWhile isHexDigit).take 8 ++
            ')' :: mvAux (rest.dropWhile isHexDigit).tail).dropWhile
              isHexDigit) = ')' :: mvAux (rest.dropWhile isHexDigit).tail := by
          rw [hd7]
          simp [List.dropWhile_cons, hrp]
        have hlen : ((rest.takeWhile isHexDigit).take 8).length = 8 := by
          rw [List.length_take]
          omega
        have hsha2 : shaMatch ((rest.takeWhile isHexDigit).take 8 ++
            ')' :: mvAux (rest.dropWhile isHexDigit).tail) :=
          ⟨by rw [htw, hlen], by rw [hdw]; rfl⟩
        rw [if_pos ⟨rfl, hsha2⟩, htw, hdw]
        simp only [List.tail_cons, List.take_take]
        rw [ih (rest.dropWhile isHexDigit).tail (le_trans htail hrl)]
        norm_num
      · rw [if_neg hcond, mvAux_cons]
        have hcond2 : ¬(c = '(' ∧ shaMatch (mvAux rest)) := by
          rintro ⟨hc, h8, hhd⟩
          apply hcond
          obtain ⟨hts, hds⟩ := mvAux_scan rest
          rw [hts] at h8
          rw [hds] at hhd
          exact ⟨hc, h8, mvAux_head_rp _ hhd⟩
        rw [if_neg hcond2, ih rest hrl]

/-- C9: the version normalizer is idempotent — applying it to its own
output returns that output unchanged — and in particular it truncates the
parenthesized 40-digit build hash of
"0.54.2 (0b184893278620bb421a85c8b47df36900cd4df7)" to its first 8 digits
and passes "dev" through unchanged. -/
theorem c9_mapVersion_idem :
    (∀ s : String, mapVersion (mapVersion s) = mapVersion s) ∧
    mapVersion "0.54.2 (0b184893278620bb421a85c8b47df36900cd4df7)" =
      "0.54.2 (0b184893)" ∧
    mapVersion "dev" = "dev" := by
  refine ⟨fun s => ?_, by decide, by decide⟩
  show (⟨mvAux (mvAux s.data)⟩ : String) = ⟨mvAux s.data⟩
  exact congrArg (fun l : List Char => (⟨l⟩ : String))
    (mvAux_idem_n s.data.length s.data (le_refl _))

/-! ## Claim C2: determinism of the daily aggregation -/

theorem aggStep_perm {ord : List Rule} (h : ord.Perm playersTypes)
    (st : AggState) (data : Report)
    (hap : ∀ pc ∈ data.library.activePlayers, matchCount pc.1 ≤ 1) :
    aggStep ord st data = aggStep playersTypes st data := by
  simp only [aggStep]
  rw [mapPlayerTypes_perm h _ hap]

theorem foldl_aggStep_perm {ord₁ ord₂ : List Rule}
    (h₁ : ord₁.Perm playersTypes) (h₂ : ord₂.Perm playersTypes) :
    ∀ (reports : List Report) (st : AggState),
      (∀ r ∈ reports, ∀ pc ∈ r.library.activePlayers, matchCount pc.1 ≤ 1) →
      reports.foldl (aggStep ord₁) st = reports.foldl (aggStep ord₂) st := by
  intro reports
  induction reports with
  | nil => intro st _; rfl
  | cons r rest ih =>
    intro st hun
    simp only [List.foldl_cons]
    rw [aggStep_perm h₁ st r (hun r (by simp)),
      ← aggStep_perm h₂ st r (hun r (by simp))]
    exact ih _ (fun q hq => hun q (List.mem_cons_of_mem r hq))

/-- The rule table moved to a different iteration order: the discard rule
for "feishin" first.  A permutation of `playersTypes`. -/
def rulesFeishinFirst : List Rule :=
  (pContains "feishin", "") :: (playersTypes.take 2 ++ playersTypes.drop 3)

theorem rulesFeishinFirst_perm : rulesFeishinFirst.Perm playersTypes := by
  have h : (playersTypes.take 2 ++
      (pContains "feishin", "") :: playersTypes.drop 3).Perm
        ((pContains "feishin", "") ::
          (playersTypes.take 2 ++ playersTypes.drop 3)) := List.perm_middle
  have he : playersTypes.take 2 ++
      (pContains "feishin", "") :: playersTypes.drop 3 = playersTypes := rfl
  rw [he] at h
  exact h.symm

/-- A report whose single active-player identifier matches two different
rules of the table ("supersonic" with label "Supersonic", and the discard
rule "feishin"). -/
def exAmbigReport : Report :=
  ⟨"dev", ⟨"linux", "debian", "amd64", false⟩, none, none,
   ⟨0, 0, 0, 0, 0, 0, 0, 0, [("supersonicfeishin", 1)]⟩⟩

/-- C2, counterexample.  The claim says two aggregation runs over the same
report sequence always produce byte-identical persisted summaries.  Go
randomizes the iteration order of the classifier rule map between runs, and
for a report whose player identifier matches two rules with different
labels the persisted summary depends on that order: under the source
listing order the identifier becomes "Supersonic", under the order with
the feishin discard rule first it is dropped, and the two summaries
differ. -/
theorem c2_determinism_counterexample :
    rulesFeishinFirst.Perm playersTypes ∧
    summarize rulesFeishinFirst [exAmbigReport] ≠
      summarize playersTypes [exAmbigReport] := by
  refine ⟨rulesFeishinFirst_perm, fun h => ?_⟩
  have h2 : (summarize rulesFeishinFirst [exAmbigReport]).map
      (fun s => s.playerTypes) =
      (summarize playersTypes [exAmbigReport]).map
      (fun s => s.playerTypes) := by rw [h]
  revert h2
  decide

/-- C2, amended: the daily aggregation is deterministic in its input
sequence provided every active-player identifier of every report matches
at most one rule of the classifier table — whatever iteration orders the
two runs see for the rule table, the persisted summaries (JSON with sorted
map keys, modelled as the `Summary` value) are identical.  For a report
sequence containing an identifier that matches two rules with different
labels, the persisted summary may depend on the iteration order (see the
counterexample). -/
theorem c2_determinism (reports : List Report) (ord₁ ord₂ : List Rule)
    (h₁ : ord₁.Perm playersTypes) (h₂ : ord₂.Perm playersTypes)
    (hun : ∀ r ∈ reports, ∀ pc ∈ r.library.activePlayers,
      matchCount pc.1 ≤ 1) :
    summarize ord₁ reports = summarize ord₂ reports := by
  unfold summarize
  rw [foldl_aggStep_perm h₁ h₂ reports _ hun]

/-- A report with unambiguous player identifiers ("feishin_" matches only
the discard rule, "Feishin" matches nothing). -/
def exFeishinReport : Report :=
  ⟨"dev", ⟨"linux", "debian", "amd64", false⟩, none, none,
   ⟨10, 2, 1, 0, 0, 0, 1, 3, [("feishin_", 1), ("Feishin", 1)]⟩⟩

theorem c2_determinism_witness :
    summarize rulesFeishinFirst [exFeishinReport] =
      summarize playersTypes [exFeishinReport] :=
  c2_determinism [exFeishinReport] rulesFeishinFirst playersTypes
    rulesFeishinFirst_perm (List.Perm.refl _) (by decide)

/-! ## Claim C8: rolling-window top-N selection -/

theorem lookup0_foldl_incrBy :
    ∀ (l : List (String × Nat)) (m : CMap) (v : String),
      lookup0 (l.foldl (fun acc kv => incrBy acc kv.1 kv.2) m) v =
        lookup0 m v + ((l.filter (fun kv => kv.1 = v)).map
          (fun kv => kv.2)).sum := by
  intro l
  induction l with
  | nil => intro m v; simp
  | cons kv rest ih =>
    intro m v
    simp only [List.foldl_cons, List.filter_cons]
    by_cases hk : kv.1 = v
    · subst hk
      rw [ih, lookup0_incrBy_self,
        if_pos (show (decide (kv.1 = kv.1)) = true by simp)]
      simp only [List.map_cons, List.sum_cons]
      omega
    · rw [ih, lookup0_incrBy_ne _ _ _ _ (fun hvk => hk hvk.symm),
        if_neg (by simpa using hk)]

theorem filter_keys_nil (vm : CMap) (v : String) (h : v ∉ keysOf vm) :
    vm.filter (fun kv => kv.1 = v) = [] := by
  rw [List.filter_eq_nil_iff]
  intro kv hkv
  simp only [decide_eq_true_eq]
  intro hc
  exact h (hc ▸ List.mem_map_of_mem (fun kv => kv.1) hkv)

theorem filtered_sum_eq_lookup0 (vm : CMap) (v : String)
    (hnd : (keysOf vm).Nodup) :
    ((vm.filter (fun kv => kv.1 = v)).map (fun kv => kv.2)).sum =
      lookup0 vm v := by
  induction vm with
  | nil => rfl
  | cons kv rest ih =>
    simp only [keysOf, List.map_cons, List.nodup_cons] at hnd
    simp only [List.filter_cons, lookup0]
    by_cases hk : kv.1 = v
    · rw [if_pos (by simpa using hk), if_pos hk]
      have : rest.filter (fun kv => kv.1 = v) = [] :=
        filter_keys_nil rest v (hk ▸ hnd.1)
      simp [this]
    · rw [if_neg (by simpa using hk), if_neg hk]
      exact ih hnd.2

theorem lookup0_mergeCounts (m vm : CMap) (v : String)
    (hnd : (keysOf vm).Nodup) :
    lookup0 (mergeCounts m vm) v = lookup0 m v + lookup0 vm v := by
  unfold mergeCounts
  rw [lookup0_foldl_incrBy, filtered_sum_eq_lookup0 vm v hnd]

/-- The two-summary scenario of the rolling-window claim: version "A" with
1000 installs on day 0, version "B" with 5 installs on day w+1 (so day 0
lies outside every window of size w ending on day w+1). -/
def vRecA : SummaryRecord :=
  ⟨0, { emptySummary with numInstances := 1, versions := [("A", 1000)] }⟩

def vRecB (w : Nat) : SummaryRecord :=
  ⟨(w : Int) + 1,
   { emptySummary with numInstances := 1, versions := [("B", 5)] }⟩

/-- C8: the top-N selection of the versions chart sums each version's
counts only over the trailing window of the last `w` calendar days ending
at the last summary's day (first conjunct: the accumulated total of a
version is the sum of its counts over exactly the records inside the
window), and consequently a version dominant only inside the window is
selected while a version with a far larger all-time total that lies
entirely outside the window is not (second conjunct, for every window
size `w`: "B" with window total 5 is selected, "A" with all-time total
1000 is not). -/
theorem c8_window_selection :
    (∀ (summaries : List SummaryRecord) (w : Nat) (v : String),
      (∀ s ∈ summaries, (keysOf s.data.versions).Nodup) →
      lookup0 (versionTotals summaries w) v =
        ((summaries.filter
          (fun s => decide (lastTime summaries - (w : Int) ≤ s.time))).map
            (fun s => lookup0 s.data.versions v)).sum) ∧
    (∀ w : Nat,
      selectTopVersions [vRecA, vRecB w] w = ["B"] ∧
      "A" ∉ selectTopVersions [vRecA, vRecB w] w ∧
      allTimeTotal [vRecA, vRecB w] "A" = 1000 ∧
      allTimeTotal [vRecA, vRecB w] "B" = 5) := by
  constructor
  · intro summaries w v hnd
    unfold versionTotals
    suffices hgen : ∀ (l : List SummaryRecord) (m : CMap),
        (∀ s ∈ l, (keysOf s.data.versions).Nodup) →
        lookup0 (l.foldl (fun m s =>
          if lastTime summaries - (w : Int) ≤ s.time then
            mergeCounts m s.data.versions else m) m) v =
        lookup0 m v + ((l.filter
          (fun s => decide (lastTime summaries - (w : Int) ≤ s.time))).map
            (fun s => lookup0 s.data.versions v)).sum by
      rw [hgen summaries [] hnd]
      simp [lookup0]
    intro l
    induction l with
    | nil => intro m _; simp
    | cons s rest ih =>
      intro m hl
      simp only [List.foldl_cons, List.filter_cons]
      by_cases hcut : lastTime summaries - (w : Int) ≤ s.time
      · rw [if_pos hcut, if_pos (by simpa using hcut),
          ih _ (fun q hq => hl q (List.mem_cons_of_mem s hq)),
          lookup0_mergeCounts m _ v (hl s (by simp))]
        simp only [List.map_cons, List.sum_cons]
        omega
      · rw [if_neg hcut, if_neg (by simpa using hcut),
          ih _ (fun q hq => hl q (List.mem_cons_of_mem s hq))]
  · intro w
    have hcA : ¬(lastTime [vRecA, vRecB w] - (w : Int) ≤ vRecA.time) := by
      simp only [lastTime, vRecA, vRecB, List.getLast?]
      norm_num
    have hcB : lastTime [vRecA, vRecB w] - (w : Int) ≤ (vRecB w).time := by
      simp only [lastTime, vRecA, vRecB, List.getLast?]
      norm_num
    have hvt : versionTotals [vRecA, vRecB w] w = [("B", 5)] := by
      unfold versionTotals
      simp only [List.foldl_cons, List.foldl_nil]
      rw [if_neg hcA, if_pos hcB]
      simp [mergeCounts, vRecB, emptySummary, incrBy]
    have hsel : selectTopVersions [vRecA, vRecB w] w = ["B"] := by
      unfold selectTopVersions
      rw [hvt]
      rfl
    exact ⟨hsel, by rw [hsel]; simp, rfl, rfl⟩

theorem c8_window_selection_witness :
    lookup0 (versionTotals [vRecA, vRecB 30] 30) "A" =
        (([vRecA, vRecB 30].filter
          (fun s => decide (lastTime [vRecA, vRecB 30] - (30 : Int) ≤ s.time))).map
            (fun s => lookup0 s.data.versions "A")).sum ∧
      selectTopVersions [vRecA, vRecB 30] 30 = ["B"] ∧
      "A" ∉ selectTopVersions [vRecA, vRecB 30] 30 :=
  ⟨c8_window_selection.1 [vRecA, vRecB 30] 30 "A" (by decide),
   (c8_window_selection.2 30).1, (c8_window_selection.2 30).2.1⟩

/-! ## Claim C7: gap-filled time axis -/

theorem mem_rangeDays (s e d : Int) :
    d ∈ rangeDays s e ↔ (s ≤ d ∧ d ≤ e) := by
  unfold rangeDays
  simp only [List.mem_map, List.mem_range]
  constructor
  · rintro ⟨i, hi, rfl⟩
    omega
  · intro ⟨h1, h2⟩
    exact ⟨(d - s).toNat, by omega, by omega⟩

theorem nodup_rangeDays (s e : Int) : (rangeDays s e).Nodup := by
  unfold rangeDays
  refine List.Nodup.map ?_ (List.nodup_range _)
  intro a b hab
  have h2 : s + (a : Int) = s + (b : Int) := hab
  omega

theorem length_rangeDays (s e : Int) :
    (rangeDays s e).length = (e - s + 1).toNat := by
  unfold rangeDays
  rw [List.length_map, List.length_range]

theorem lookupRec_insertRec_self (m : List (Int × SummaryRecord)) (k : Int)
    (v : SummaryRecord) : lookupRec (insertRec m k v) k = some v := by
  induction m with
  | nil => simp [lookupRec, insertRec]
  | cons kv rest ih =>
    by_cases h : kv.1 = k <;> simp [lookupRec, insertRec, h, ih]

theorem lookupRec_insertRec_ne (m : List (Int × SummaryRecord)) (k : Int)
    (v : SummaryRecord) (k' : Int) (h : k' ≠ k) :
    lookupRec (insertRec m k v) k' = lookupRec m k' := by
  induction m with
  | nil => simp [lookupRec, insertRec, Ne.symm h]
  | cons kv rest ih =>
    by_cases hk : kv.1 = k
    · simp [lookupRec, insertRec, hk, Ne.symm h]
    · by_cases hk2 : kv.1 = k' <;> simp [lookupRec, insertRec, hk, hk2, ih, h]

theorem lookupRec_fold_notMem :
    ∀ (l : List SummaryRecord) (m : List (Int × SummaryRecord)) (d : Int),
      d ∉ l.map (fun s => s.time) →
      lookupRec (l.foldl (fun m s => insertRec m s.time s) m) d =
        lookupRec m d := by
  intro l
  induction l with
  | nil => intro m d _; rfl
  | cons s t ih =>
    intro m d hd
    simp only [List.map_cons, List.mem_cons] at hd
    push_neg at hd
    simp only [List.foldl_cons]
    rw [ih _ d hd.2, lookupRec_insertRec_ne _ _ _ _ hd.1]

theorem lookupRec_fold_mem :
    ∀ (l : List SummaryRecord) (m : List (Int × SummaryRecord))
      (d : Int) (s' : SummaryRecord),
      (l.map (fun s => s.time)).Nodup → s' ∈ l → s'.time = d →
      lookupRec (l.foldl (fun m s => insertRec m s.time s) m) d = some s' := by
  intro l
  induction l with
  | nil => intro _ _ _ _ h; simp at h
  | cons s t ih =>
    intro m d s' hnd hmem htime
    simp only [List.map_cons, List.nodup_cons] at hnd
    simp only [List.foldl_cons]
    rcases List.mem_cons.mp hmem with rfl | hmem
    · rw [lookupRec_fold_notMem t _ d (htime ▸ hnd.1), ← htime]
      exact lookupRec_insertRec_self m s'.time s'
    · exact ih _ d s' hnd.2 hmem htime

theorem lookupRec_fold_sound :
    ∀ (l : List SummaryRecord) (m : List (Int × SummaryRecord))
      (d : Int) (s' : SummaryRecord),
      lookupRec (l.foldl (fun m s => insertRec m s.time s) m) d = some s' →
      lookupRec m d = some s' ∨ (s' ∈ l ∧ s'.time = d) := by
  intro l
  induction l with
  | nil => intro m d s' h; exact Or.inl h
  | cons s t ih =>
    intro m d s' h
    simp only [List.foldl_cons] at h
    rcases ih _ d s' h with hm | hmem
    · by_cases hd : d = s.time
      · subst hd
        rw [lookupRec_insertRec_self] at hm
        have hs' : s = s' := Option.some.inj hm
        subst hs'
        exact Or.inr ⟨by simp, rfl⟩
      · rw [lookupRec_insertRec_ne _ _ _ _ hd] at hm
        exact Or.inl hm
    · exact Or.inr ⟨List.mem_cons_of_mem s hmem.1, hmem.2⟩

/-- The loop invariant of the `findGaps` scan, at current day `d` with
state `st`, for a scan that started at day `start`:

* every closed gap range in `st.gaps` is a maximal run of days without
  data lying strictly before `d`;
* when a gap is open, it started in `[start, d)`, every day from its start
  to `d` (exclusive) has no data, the day before its start has data (or it
  starts the axis), and it lies beyond every closed gap;
* when no gap is open, the previous day (if any) has data;
* every day without data in `[start, d)` is covered by a closed gap or by
  the open gap. -/
def GapInv (hasData : Int → Bool) (start d : Int) (st : GapState) : Prop :=
  (∀ g ∈ st.gaps,
    start ≤ g.1 ∧ g.1 ≤ g.2 ∧ g.2 + 1 < d ∧
    (∀ x : Int, g.1 ≤ x → x ≤ g.2 → hasData x = false) ∧
    (g.1 = start ∨ hasData (g.1 - 1) = true) ∧
    hasData (g.2 + 1) = true) ∧
  (st.inGap = true →
    start ≤ st.gapStart ∧ st.gapStart ≤ d - 1 ∧
    (∀ x : Int, st.gapStart ≤ x → x < d → hasData x = false) ∧
    (st.gapStart = start ∨ hasData (st.gapStart - 1) = true) ∧
    (∀ g ∈ st.gaps, g.2 < st.gapStart)) ∧
  (st.inGap = false → d = start ∨ hasData (d - 1) = true) ∧
  (∀ x : Int, start ≤ x → x < d → hasData x = false →
    (∃ g ∈ st.gaps, g.1 ≤ x ∧ x ≤ g.2) ∨
      (st.inGap = true ∧ st.gapStart ≤ x))

theorem gapsLoop_succ (hasData : Int → Bool) (n : Nat) (d : Int)
    (st : GapState) :
    gapsLoop hasData (n + 1) d st =
      gapsLoop hasData n (d + 1)
        (if hasData d = false ∧ st.inGap = false then
          ⟨st.gaps, true, d⟩
         else if hasData d = true ∧ st.inGap = true then
          ⟨st.gaps ++ [(st.gapStart, d - 1)], false, st.gapStart⟩
         else st) := by
  by_cases h1 : hasData d = false ∧ st.inGap = false
  · simp [gapsLoop, h1]
  · by_cases h2 : hasData d = true ∧ st.inGap = true
    · simp [gapsLoop, h1, h2]
    · simp [gapsLoop, h1, h2]

theorem gapStep_inv (hasData : Int → Bool) (start d : Int) (st : GapState)
    (hd : start ≤ d) (hinv : GapInv hasData start d st) :
    GapInv hasData start (d + 1)
      (if hasData d = false ∧ st.inGap = false then
        ⟨st.gaps, true, d⟩
       else if hasData d = true ∧ st.inGap = true then
        ⟨st.gaps ++ [(st.gapStart, d - 1)], false, st.gapStart⟩
       else st) := by
  obtain ⟨hgaps, hopen, hclosed, hcomp⟩ := hinv
  by_cases h1 : hasData d = false ∧ st.inGap = false
  · rw [if_pos h1]
    unfold GapInv
    dsimp only
    refine ⟨?_, ?_, ?_, ?_⟩
    · intro g hg
      obtain ⟨a1, a2, a3, a4, a5, a6⟩ := hgaps g hg
      exact ⟨a1, a2, by omega, a4, a5, a6⟩
    · intro _
      refine ⟨hd, by omega, ?_, hclosed h1.2, ?_⟩
      · intro x hx1 hx2
        have hx : x = d := by omega
        rw [hx]
        exact h1.1
      · intro g hg
        have := (hgaps g hg).2.2.1
        omega
    · intro h
      simp at h
    · intro x hx1 hx2 hx3
      by_cases hxd : x = d
      · exact Or.inr ⟨rfl, by omega⟩
      · rcases hcomp x hx1 (by omega) hx3 with hcov | hop
        · exact Or.inl hcov
        · rw [h1.2] at hop
          exact absurd hop.1 (by simp)
  · by_cases h2 : hasData d = true ∧ st.inGap = true
    · rw [if_neg h1, if_pos h2]
      unfold GapInv
      dsimp only
      obtain ⟨b1, b2, b3, b4, b5⟩ := hopen h2.2
      refine ⟨?_, ?_, ?_, ?_⟩
      · intro g hg
        rcases List.mem_append.mp hg with hg | hg
        · obtain ⟨a1, a2, a3, a4, a5, a6⟩ := hgaps g hg
          exact ⟨a1, a2, by omega, a4, a5, a6⟩
        · simp only [List.mem_singleton] at hg
          subst hg
          refine ⟨b1, b2, by omega, ?_, b4, ?_⟩
          · intro x hx1 hx2
            exact b3 x hx1 (by omega)
          · simpa using h2.1
      · intro h
        simp at h
      · intro _
        exact Or.inr (by simpa using h2.1)
      · intro x hx1 hx2 hx3
        by_cases hxd : x = d
        · rw [hxd, h2.1] at hx3
          simp at hx3
        · rcases hcomp x hx1 (by omega) hx3 with ⟨g, hg, hgx⟩ | hop
          · exact Or.inl ⟨g, List.mem_append_left _ hg, hgx⟩
          · refine Or.inl ⟨(st.gapStart, d - 1), List.mem_append_right _ (by simp), ?_⟩
            exact ⟨hop.2, by omega⟩
    · rw [if_neg h1, if_neg h2]
      by_cases hig : st.inGap = true
      · -- still inside a gap: the day has no data
        have hdd : hasData d = false := by
          cases hcase : hasData d
          · rfl
          · exact absurd ⟨hcase, hig⟩ h2
        obtain ⟨b1, b2, b3, b4, b5⟩ := hopen hig
        refine ⟨?_, ?_, ?_, ?_⟩
        · intro g hg
          obtain ⟨a1, a2, a3, a4, a5, a6⟩ := hgaps g hg
          exact ⟨a1, a2, by omega, a4, a5, a6⟩
        · intro _
          refine ⟨b1, by omega, ?_, b4, b5⟩
          intro x hx1 hx2
          by_cases hxd : x = d
          · rw [hxd]
            exact hdd
          · exact b3 x hx1 (by omega)
        · intro h
          rw [h] at hig
          simp at hig
        · intro x hx1 hx2 hx3
          by_cases hxd : x = d
          · exact Or.inr ⟨hig, by omega⟩
          · rcases hcomp x hx1 (by omega) hx3 with hcov | hop
            · exact Or.inl hcov
            · exact Or.inr ⟨hig, hop.2⟩
      · -- outside a gap: the day has data
        have hig' : st.inGap = false := by
          cases hcase : st.inGap
          · rfl
          · exact absurd hcase hig
        have hdd : hasData d = true := by
          cases hcase : hasData d
          · exact absurd ⟨hcase, hig'⟩ h1
          · rfl
        refine ⟨?_, ?_, ?_, ?_⟩
        · intro g hg
          obtain ⟨a1, a2, a3, a4, a5, a6⟩ := hgaps g hg
          exact ⟨a1, a2, by omega, a4, a5, a6⟩
        · intro h
          rw [h] at hig
          simp at hig
        · intro _
          exact Or.inr (by simpa using hdd)
        · intro x hx1 hx2 hx3
          by_cases hxd : x = d
          · rw [hxd, hdd] at hx3
            simp at hx3
          · rcases hcomp x hx1 (by omega) hx3 with hcov | hop
            · exact Or.inl hcov
            · rw [hig'] at hop
              exact absurd hop.1 (by simp)

theorem gapsLoop_inv (hasData : Int → Bool) (start : Int) :
    ∀ (k : Nat) (d : Int) (st : GapState),
      start ≤ d → GapInv hasData start d st →
      GapInv hasData start (d + (k : Int)) (gapsLoop hasData k d st) := by
  intro k
  induction k with
  | zero =>
    intro d st _ hinv
    simpa [gapsLoop] using hinv
  | succ k ih =>
    intro d st hd hinv
    rw [gapsLoop_succ]
    have hstep := gapStep_inv hasData start d st hd hinv
    have := ih (d + 1) _ (by omega) hstep
    have harith : d + 1 + (k : Int) = d + ((k + 1 : Nat) : Int) := by
      push_cast
      ring
    rwa [harith] at this

/-- The gap example of the spec: summaries only on day 1 and day 5. -/
def exGap : List SummaryRecord := [instRec 1 3, instRec 5 4]

theorem isSome_false_iff_none (o : Option SummaryRecord) :
    (o.isSome = false) ↔ o = none := by
  cases o <;> simp

/-- C7: for a non-empty summary list with strictly increasing days, the
time axis holds exactly one label per calendar day from the first to the
last summary's day inclusive (membership characterization plus no
duplicates); the day lookup is `none` exactly for days without a summary
and returns only records of the list tagged with the queried day; every
range reported by `findGaps` is a maximal contiguous run of days without
data (all its days lack data, it lies within the axis, and it is bounded by
days with data or the axis ends); and every day without data lies inside a
reported range.  In particular summaries on days 1 and 5 only give the
five-day axis [1,2,3,4,5] with the single gap [2,4]. -/
theorem c7_time_axis :
    (∀ (summaries : List SummaryRecord) (s0 : SummaryRecord)
        (rest : List SummaryRecord), summaries = s0 :: rest →
      List.Sorted (fun a b : SummaryRecord => a.time < b.time) summaries →
      (∀ d : Int,
        d ∈ (buildTimeSeriesData summaries).dates ↔
          (s0.time ≤ d ∧ d ≤ (summaries.getLastD s0).time)) ∧
      (buildTimeSeriesData summaries).dates.Nodup ∧
      (∀ d : Int,
        (lookupRec (buildTimeSeriesData summaries).lookup d = none ↔
          d ∉ summaries.map (fun s => s.time)) ∧
        (∀ s', lookupRec (buildTimeSeriesData summaries).lookup d = some s' →
          s' ∈ summaries ∧ s'.time = d)) ∧
      (∀ g ∈ findGaps (buildTimeSeriesData summaries),
        s0.time ≤ g.1 ∧ g.1 ≤ g.2 ∧ g.2 ≤ (summaries.getLastD s0).time ∧
        (∀ x : Int, g.1 ≤ x → x ≤ g.2 →
          lookupRec (buildTimeSeriesData summaries).lookup x = none) ∧
        (g.1 = s0.time ∨
          (lookupRec (buildTimeSeriesData summaries).lookup (g.1 - 1)).isSome
            = true) ∧
        (g.2 = (summaries.getLastD s0).time ∨
          (lookupRec (buildTimeSeriesData summaries).lookup (g.2 + 1)).isSome
            = true)) ∧
      (∀ x : Int, s0.time ≤ x → x ≤ (summaries.getLastD s0).time →
        lookupRec (buildTimeSeriesData summaries).lookup x = none →
        ∃ g ∈ findGaps (buildTimeSeriesData summaries),
          g.1 ≤ x ∧ x ≤ g.2)) ∧
    ((buildTimeSeriesData exGap).dates = [1, 2, 3, 4, 5] ∧
      findGaps (buildTimeSeriesData exGap) = [(2, 4)]) := by
  constructor
  · intro summaries s0 rest hs hsorted
    subst hs
    have hlast_mem : ((s0 :: rest).getLastD s0) ∈ s0 :: rest := by
      rw [List.getLastD_eq_getLast?,
        List.getLast?_eq_getLast (s0 :: rest) (by simp)]
      exact List.getLast_mem _
    have hse : s0.time ≤ ((s0 :: rest).getLastD s0).time := by
      rcases List.mem_cons.mp hlast_mem with he | he
      · rw [he]
      · exact le_of_lt ((List.sorted_cons.mp hsorted).1 _ he)
    have hnodupt : ((s0 :: rest).map (fun s => s.time)).Nodup := by
      have hp : ((s0 :: rest).map (fun s => s.time)).Pairwise (· < ·) := by
        rw [List.pairwise_map]
        exact hsorted
      exact hp.imp (fun h => ne_of_lt h)
    set endd := ((s0 :: rest).getLastD s0).time with hendd
    set L := (s0 :: rest).foldl (fun m s => insertRec m s.time s)
      ([] : List (Int × SummaryRecord)) with hL
    have hts : buildTimeSeriesData (s0 :: rest) =
        ⟨rangeDays s0.time endd, L, s0.time⟩ := rfl
    have hdlen : (rangeDays s0.time endd).length =
        (endd - s0.time + 1).toNat := length_rangeDays _ _
    have hnint : ((rangeDays s0.time endd).length : Int) =
        endd - s0.time + 1 := by
      rw [hdlen]
      omega
    have hnemp : (rangeDays s0.time endd).isEmpty = false := by
      have h1 : 1 ≤ (rangeDays s0.time endd).length := by
        rw [hdlen]
        omega
      cases hrd : rangeDays s0.time endd
      · rw [hrd] at h1
        simp at h1
      · rfl
    have hfg : findGaps ⟨rangeDays s0.time endd, L, s0.time⟩ =
        (if (gapsLoop (fun d => (lookupRec L d).isSome)
            (rangeDays s0.time endd).length s0.time ⟨[], false, 0⟩).inGap then
          (gapsLoop (fun d => (lookupRec L d).isSome)
            (rangeDays s0.time endd).length s0.time ⟨[], false, 0⟩).gaps ++
            [((gapsLoop (fun d => (lookupRec L d).isSome)
              (rangeDays s0.time endd).length s0.time ⟨[], false, 0⟩).gapStart,
              s0.time + (((rangeDays s0.time endd).length : Int) - 1))]
        else (gapsLoop (fun d => (lookupRec L d).isSome)
          (rangeDays s0.time endd).length s0.time ⟨[], false, 0⟩).gaps) := by
      unfold findGaps
      simp only [hnemp, Bool.false_eq_true, if_false]
    set st := gapsLoop (fun d => (lookupRec L d).isSome)
      (rangeDays s0.time endd).length s0.time ⟨[], false, 0⟩ with hst
    have hinit : GapInv (fun d => (lookupRec L d).isSome) s0.time s0.time
        ⟨[], false, 0⟩ := by
      refine ⟨?_, ?_, ?_, ?_⟩
      · intro g hg
        simp at hg
      · intro h
        simp at h
      · intro _
        exact Or.inl rfl
      · intro x h1 h2 _
        omega
    have hloop := gapsLoop_inv (fun d => (lookupRec L d).isSome) s0.time
      (rangeDays s0.time endd).length s0.time ⟨[], false, 0⟩
      (le_refl _) hinit
    rw [← hst] at hloop
    obtain ⟨hgaps, hopen, hclosed, hcomp⟩ := hloop
    have hend2 : s0.time + (((rangeDays s0.time endd).length : Nat) : Int) =
        endd + 1 := by
      omega
    refine ⟨?_, ?_, ?_, ?_, ?_⟩
    · -- (a) one label per day
      intro d
      rw [hts]
      exact mem_rangeDays _ _ d
    · -- (a) no duplicate labels
      rw [hts]
      exact nodup_rangeDays _ _
    · -- (b) lookup characterization
      intro d
      rw [hts]
      constructor
      · constructor
        · intro hnone hd
          rw [List.mem_map] at hd
          obtain ⟨s', hs', ht'⟩ := hd
          rw [show (⟨rangeDays s0.time endd, L, s0.time⟩ :
              TimeSeriesData).lookup = L from rfl] at hnone
          rw [hL, lookupRec_fold_mem (s0 :: rest) [] d s' hnodupt hs' ht']
            at hnone
          exact Option.noConfusion hnone
        · intro hd
          show lookupRec L d = none
          rw [hL, lookupRec_fold_notMem (s0 :: rest) [] d hd]
          rfl
      · intro s' hsome
        have hsome' : lookupRec L d = some s' := hsome
        rcases lookupRec_fold_sound (s0 :: rest) [] d s' (hL ▸ hsome')
          with h | h
        · exact Option.noConfusion h
        · exact h
    · -- (c) every reported gap is a maximal absent run
      intro g hg
      rw [hts, hfg] at hg
      cases hig : st.inGap
      · rw [hig] at hg
        simp only [Bool.false_eq_true, if_false] at hg
        obtain ⟨a1, a2, a3, a4, a5, a6⟩ := hgaps g hg
        refine ⟨a1, a2, by omega, ?_, a5, Or.inr a6⟩
        intro x hx1 hx2
        exact (isSome_false_iff_none _).mp (a4 x hx1 hx2)
      · rw [hig] at hg
        simp only [if_true] at hg
        rcases List.mem_append.mp hg with hgm | hgm
        · obtain ⟨a1, a2, a3, a4, a5, a6⟩ := hgaps g hgm
          refine ⟨a1, a2, by omega, ?_, a5, Or.inr a6⟩
          intro x hx1 hx2
          exact (isSome_false_iff_none _).mp (a4 x hx1 hx2)
        · simp only [List.mem_singleton] at hgm
          subst hgm
          obtain ⟨b1, b2, b3, b4, b5⟩ := hopen hig
          refine ⟨b1, by omega, by omega, ?_, b4, Or.inl (by omega)⟩
          intro x hx1 hx2
          exact (isSome_false_iff_none _).mp (b3 x hx1 (by omega))
    · -- (c) every absent day is covered by a reported gap
      intro x hx1 hx2 hxnone
      rw [hts] at hxnone
      have hxabs : (fun d => (lookupRec L d).isSome) x = false :=
        (isSome_false_iff_none _).mpr hxnone
      rcases hcomp x hx1 (by omega) hxabs with ⟨g, hgm, hgx⟩ | ⟨higt, hgs⟩
      · refine ⟨g, ?_, hgx.1, hgx.2⟩
        rw [hts, hfg]
        cases hig : st.inGap
        · simp only [Bool.false_eq_true, if_false]
          exact hgm
        · simp only [if_true]
          exact List.mem_append_left _ hgm
      · obtain ⟨b1, b2, b3, b4, b5⟩ := hopen higt
        refine ⟨(st.gapStart,
          s0.time + (((rangeDays s0.time endd).length : Int) - 1)),
          ?_, hgs, by omega⟩
        rw [hts, hfg, higt]
        simp only [if_true]
        exact List.mem_append_right _ (by simp)
  · constructor
    · decide
    · decide

theorem c7_time_axis_witness :
    (∀ d : Int, d ∈ (buildTimeSeriesData exGap).dates ↔ (1 ≤ d ∧ d ≤ 5)) ∧
    ∃ g ∈ findGaps (buildTimeSeriesData exGap), g.1 ≤ 3 ∧ 3 ≤ g.2 :=
  ⟨(c7_time_axis.1 exGap (instRec 1 3) [instRec 5 4] rfl (by decide)).1,
   (c7_time_axis.1 exGap (instRec 1 3) [instRec 5 4] rfl
     (by decide)).2.2.2.2 3 (by decide) (by decide) (by decide)⟩

end Insights
